import Mathlib

/- Verification development for the core algorithmic components of the
   Multi_Agentic_System-for-FT-Perdictions repository:
   - src/tools/mean_analysis/mean_analyzer.py   (consensus engine)
   - src/tools/technical_indicators/technical_indicators.py (RSI / MACD)
   - src/tools/volume_profile/volume_profile.py (volume profile builder)

   Machine floats of the source are embedded as exact rationals; pandas
   NaN / missing values are embedded as Option; exceptions raised by the
   Python code (ValueError, KeyError, IndexError) are embedded as
   Except / Option error results. -/

namespace MeanAnalyzer

/- A per-agent prediction as loaded from data/predictions/<agent>/<symbol>/<timeframe>.json.
   Only the fields the consensus computation reads are modelled:
   prediction_label and signal_strength (the confidence). -/
structure Prediction where
  prediction_label : String
  signal_strength : ℚ
deriving DecidableEq

/- The prediction files available on disk for one {symbol, timeframe} key,
   one optional record per agent in the fixed agent list
   ["deepseek", "gemini", "groq"] of combine_predictions. -/
structure PredStore where
  deepseek : Option Prediction
  gemini : Option Prediction
  groq : Option Prediction
deriving DecidableEq

/- The default prediction fabricated by load_agent_prediction when the groq
   file is absent (mean_analyzer.py lines 41-64): label "Hold",
   signal_strength 0.5. -/
def groqDefault : Prediction := { prediction_label := "Hold", signal_strength := 1 / 2 }

/- load_agent_prediction (mean_analyzer.py lines 27-69): for deepseek and
   gemini a missing file raises FileNotFoundError (modelled none, the caller
   catches it and skips the agent); for groq a missing file is replaced by
   the fabricated default record. -/
def load_agent_prediction (s : PredStore) (agent : String) : Option Prediction :=
  if agent = "deepseek" then s.deepseek
  else if agent = "gemini" then s.gemini
  else if agent = "groq" then some (s.groq.getD groqDefault)
  else none

def agents : List String := ["deepseek", "gemini", "groq"]

/- The predictions dict built by the loading loop of combine_predictions
   (lines 82-90): agents whose load raised FileNotFoundError are skipped. -/
def loadedPreds (s : PredStore) : List (String × Prediction) :=
  agents.filterMap (fun a => (load_agent_prediction s a).map (fun p => (a, p)))

/- The signal_counts dict {"Buy": _, "Sell": _, "Hold": _} (line 96). -/
structure Counts where
  buy : ℕ
  sell : ℕ
  hold : ℕ
deriving DecidableEq

/- One iteration of the tally loop (lines 98-100): signal_counts[label] += 1.
   A label outside the three fixed keys raises KeyError (modelled as the
   error value carrying the offending label). -/
def tallyOne (c : Counts) (label : String) : Except String Counts :=
  if label = "Buy" then .ok { c with buy := c.buy + 1 }
  else if label = "Sell" then .ok { c with sell := c.sell + 1 }
  else if label = "Hold" then .ok { c with hold := c.hold + 1 }
  else .error label

def tally (c : Counts) : List String → Except String Counts
  | [] => .ok c
  | l :: ls =>
    match tallyOne c l with
    | .ok c2 => tally c2 ls
    | .error e => .error e

/- max(signal_counts.values()) (line 103). -/
def maxCount (c : Counts) : ℕ := max c.buy (max c.sell c.hold)

/- mean_labels (line 104): the comprehension runs in dict insertion order
   Buy, Sell, Hold. -/
def meanLabels (c : Counts) : List String :=
  (if c.buy = maxCount c then ["Buy"] else []) ++
  (if c.sell = maxCount c then ["Sell"] else []) ++
  (if c.hold = maxCount c then ["Hold"] else [])

/- Tie resolution (lines 106-110): prefer Hold when tied, otherwise take
   the first label of the comprehension order. -/
def meanLabel (c : Counts) : String :=
  if 1 < (meanLabels c).length ∧ "Hold" ∈ meanLabels c then "Hold"
  else (meanLabels c).headD ""

/- Read a label's tally out of the counts dict. -/
def countOf (c : Counts) (label : String) : ℕ :=
  if label = "Buy" then c.buy
  else if label = "Sell" then c.sell
  else if label = "Hold" then c.hold
  else 0

/- The mean prediction artifact written to data/mean_analysis/<symbol>/<timeframe>.json
   (lines 117-125). Timestamps are opaque naturals. -/
structure MeanPrediction where
  symbol : String
  timeframe : String
  prediction_label : String
  signal_strength : ℚ
  agent_predictions : List (String × Prediction)
  signal_counts : Counts
  timestamp : ℕ
deriving DecidableEq

inductive CombineError
  | noPredictions
  | keyError (label : String)
deriving DecidableEq

/- combine_predictions (lines 71-134), up to but not including the file
   write: load the per-agent predictions, fail with ValueError if the dict
   is empty (modelled noPredictions), tally the labels (KeyError on a label
   outside {Buy, Sell, Hold}), pick the mean label, and average the
   signal strengths over the loaded records. -/
def combine_predictions (symbol timeframe : String) (s : PredStore) (now : ℕ) :
    Except CombineError MeanPrediction :=
  let preds := loadedPreds s
  if preds.isEmpty then .error .noPredictions
  else
    match tally ⟨0, 0, 0⟩ (preds.map (fun p => p.2.prediction_label)) with
    | .error l => .error (.keyError l)
    | .ok counts =>
      .ok { symbol := symbol
            timeframe := timeframe
            prediction_label := meanLabel counts
            signal_strength := (preds.map (fun p => p.2.signal_strength)).sum / preds.length
            agent_predictions := preds
            signal_counts := counts
            timestamp := now }

/- The persisted mean-analysis artifacts, keyed by {symbol, timeframe}. -/
def ArtifactStore : Type := String × String → Option MeanPrediction

def writeArtifact (a : ArtifactStore) (key : String × String) (r : MeanPrediction) :
    ArtifactStore :=
  fun k => if k = key then some r else a k

/- One full aggregation call including persistence (lines 127-132): on
   success the artifact for the key is fully overwritten, on either error
   the store is untouched (the exception propagates before the write). -/
def runCombine (symbol timeframe : String) (s : PredStore) (now : ℕ) (a : ArtifactStore) :
    ArtifactStore :=
  match combine_predictions symbol timeframe s now with
  | .ok r => writeArtifact a (symbol, timeframe) r
  | .error _ => a

/- The list of records the engine actually averages over, written
   independently of combine_predictions for the amended claim C1: records
   present for deepseek and gemini, plus groq's record or, when missing,
   the fabricated default. -/
def contributing (s : PredStore) : List Prediction :=
  s.deepseek.toList ++ s.gemini.toList ++ [s.groq.getD groqDefault]

/- The three labels the signal_counts dict can index without a KeyError. -/
def validLabel (l : String) : Prop := l = "Buy" ∨ l = "Sell" ∨ l = "Hold"

instance (l : String) : Decidable (validLabel l) :=
  inferInstanceAs (Decidable (l = "Buy" ∨ l = "Sell" ∨ l = "Hold"))

end MeanAnalyzer

namespace TechnicalIndicators

/- calculate_rsi (technical_indicators.py lines 16-47) on the Close column.
   delta = close.diff() leaves NaN at index 0; delta.where(delta > 0, 0)
   maps that NaN to 0 because NaN > 0 is False, so the gain series is 0 at
   index 0 and max(delta, 0) afterwards. -/
def gains (closes : List ℚ) : List ℚ :=
  (List.range closes.length).map fun i =>
    if i = 0 then 0 else max (closes.getD i 0 - closes.getD (i - 1) 0) 0

/- loss = -delta.where(delta < 0, 0): 0 at index 0, max(-delta, 0) afterwards. -/
def losses (closes : List ℚ) : List ℚ :=
  (List.range closes.length).map fun i =>
    if i = 0 then 0 else max (-(closes.getD i 0 - closes.getD (i - 1) 0)) 0

/- rolling(window=period).mean() at index i: defined once i + 1 ≥ period
   (and i is a valid index), the mean of the trailing window. -/
def rollingMean (period : ℕ) (l : List ℚ) (i : ℕ) : Option ℚ :=
  if i + 1 < period ∨ l.length ≤ i then none
  else some ((((List.range period).map (fun j => l.getD (i - j) 0)).sum) / period)

/- RSI at one index: rs = avg_gain / avg_loss with IEEE float semantics on
   the nonnegative gain/loss averages: avg_loss ≠ 0 gives the usual
   formula; avg_loss = 0 with avg_gain ≠ 0 gives rs = inf hence RSI = 100;
   0/0 gives NaN, and 100 - 100/(1+NaN) stays NaN (undefined). -/
def rsiAt (closes : List ℚ) (period : ℕ) (i : ℕ) : Option ℚ :=
  match rollingMean period (gains closes) i, rollingMean period (losses closes) i with
  | some g, some l =>
    if l ≠ 0 then some (100 - 100 / (1 + g / l))
    else if g ≠ 0 then some 100
    else none
  | _, _ => none

/- The RSI series aligned with the close series; none embeds NaN. -/
def calculate_rsi (closes : List ℚ) (period : ℕ) : List (Option ℚ) :=
  (List.range closes.length).map (rsiAt closes period)

/- ewm(span=s, adjust=False).mean() recursion after the seed value:
   y_i = (1 - a) * y_(i-1) + a * x_i with a = 2 / (span + 1). -/
def ewmaFrom (a y : ℚ) : List ℚ → List ℚ
  | [] => []
  | x :: xs =>
    let y2 := (1 - a) * y + a * x
    y2 :: ewmaFrom a y2 xs

/- Full exponentially weighted mean: the first output equals the first input. -/
def ewmMean (span : ℕ) (l : List ℚ) : List ℚ :=
  match l with
  | [] => []
  | x :: xs => x :: ewmaFrom (2 / (span + 1)) x xs

structure MACDResult where
  macd_line : List ℚ
  signal_line : List ℚ
  histogram : List ℚ
deriving DecidableEq

/- calculate_macd (technical_indicators.py lines 49-82). -/
def calculate_macd (closes : List ℚ) (fast slow signalPeriod : ℕ) : MACDResult :=
  let emaFast := ewmMean fast closes
  let emaSlow := ewmMean slow closes
  let macdLine := List.zipWith (fun x y => x - y) emaFast emaSlow
  let signalLine := ewmMean signalPeriod macdLine
  let histogram := List.zipWith (fun x y => x - y) macdLine signalLine
  { macd_line := macdLine, signal_line := signalLine, histogram := histogram }

end TechnicalIndicators

namespace VolumeProfile

/- One OHLCV bar restricted to the fields calculate_volume_profile reads. -/
structure Bar where
  low : ℚ
  high : ℚ
  volume : ℚ
deriving DecidableEq

/- One row of the volume profile DataFrame. -/
structure VPBin where
  price_low : ℚ
  price_high : ℚ
  price_mid : ℚ
  volume : ℚ
  value_area : Bool
  point_of_control : Bool
deriving DecidableEq

/- np.linspace(lo, hi, n + 1) entry j, as an exact rational. -/
def edgeF (lo hi : ℚ) (n : ℕ) (j : ℕ) : ℚ := lo + (hi - lo) * j / n

def binEdges (lo hi : ℚ) (n : ℕ) : List ℚ := (List.range (n + 1)).map (edgeF lo hi n)

/- np.searchsorted(edges, v) with the default side='left': on a sorted
   array this is the number of entries strictly below v. -/
def searchsorted (edges : List ℚ) (v : ℚ) : ℕ :=
  (edges.filter (fun x => decide (x < v))).length

/- Add g k to slot k of the per-bin volume accumulator. -/
def addIdx (g : ℕ → ℚ) : List ℚ → List ℚ
  | [] => []
  | v :: vs => (v + g 0) :: addIdx (fun k => g (k + 1)) vs

/- Volume allocation for one bar (volume_profile.py lines 136-159).
   Single-bin branch: volume_profile.loc[low_bin, 'Volume'] += volume; the
   label low_bin = -1 (a bar with Low = High = global minimum) is outside
   the index, so pandas raises KeyError, modelled none. Multi-bin branch:
   each index of range(low_bin, high_bin) inside [0, num_bins) receives the
   proportional share of the bar's volume; out-of-range indices are skipped
   by the explicit guard in the source. -/
def allocate (edges : List ℚ) (numBins : ℕ) (vols : List ℚ) (b : Bar) : Option (List ℚ) :=
  let lowBin : ℤ := (searchsorted edges b.low : ℤ) - 1
  let highBin : ℤ := (searchsorted edges b.high : ℤ)
  if lowBin = highBin - 1 then
    if 0 ≤ lowBin ∧ lowBin < (numBins : ℤ) then
      some (addIdx (fun k => if (k : ℤ) = lowBin then b.volume else 0) vols)
    else none
  else
    some (addIdx (fun k =>
      if lowBin ≤ (k : ℤ) ∧ (k : ℤ) < highBin then
        b.volume * ((min (edges.getD (k + 1) 0) b.high - max (edges.getD k 0) b.low) /
          (b.high - b.low))
      else 0) vols)

def allocateAll (edges : List ℚ) (numBins : ℕ) : List ℚ → List Bar → Option (List ℚ)
  | vols, [] => some vols
  | vols, b :: bs =>
    match allocate edges numBins vols b with
    | some vols2 => allocateAll edges numBins vols2 bs
    | none => none

/- Descending-by-volume order on (bin index, volume) pairs. -/
def volGE (a b : ℕ × ℚ) : Prop := b.2 ≤ a.2

instance : DecidableRel volGE := fun a b => inferInstanceAs (Decidable (b.2 ≤ a.2))

instance : IsTotal (ℕ × ℚ) volGE := ⟨fun a b => le_total b.2 a.2⟩

instance : IsTrans (ℕ × ℚ) volGE := ⟨fun _ _ _ h1 h2 => le_trans h2 h1⟩

def enumVols (vols : List ℚ) : List (ℕ × ℚ) :=
  (List.range vols.length).map (fun k => (k, vols.getD k 0))

/- volume_profile.sort_values('Volume', ascending=False) (line 169): the
   rows paired with their index labels, in descending volume order. The
   order among equal volumes is implementation-defined in pandas (default
   quicksort); the model fixes one deterministic order via insertion sort.
   No theorem below depends on the placement of ties. -/
def sortedByVolume (vols : List ℚ) : List (ℕ × ℚ) :=
  List.insertionSort volGE (enumVols vols)

/- The value-area accumulation loop (lines 176-184): append the next bin,
   then break once the cumulative volume reaches the threshold. -/
def vaTake (cum threshold : ℚ) : List (ℕ × ℚ) → List (ℕ × ℚ)
  | [] => []
  | p :: ps => p :: (if threshold ≤ cum + p.2 then [] else vaTake (cum + p.2) threshold ps)

/- Flagging (lines 161-194): poc_idx = volume_profile_sorted.index[0]
   (IndexError on an empty frame, modelled none), the value-area indices
   are the accumulated prefix, and each row gets its flags. -/
def finalize (edges : List ℚ) (vols : List ℚ) : Option (List VPBin) :=
  match sortedByVolume vols with
  | [] => none
  | top :: rest =>
    let totalVolume := vols.sum
    let vaIdx := (vaTake 0 (7 / 10 * totalVolume) (top :: rest)).map Prod.fst
    some ((List.range vols.length).map (fun k =>
      { price_low := edges.getD k 0
        price_high := edges.getD (k + 1) 0
        price_mid := (edges.getD k 0 + edges.getD (k + 1) 0) / 2
        volume := vols.getD k 0
        value_area := decide (k ∈ vaIdx)
        point_of_control := decide (k = top.1) }))

/- data['Low'].min() over a nonempty frame. -/
def minLow : List Bar → ℚ
  | [] => 0
  | b :: bs => bs.foldl (fun m x => min m x.low) b.low

/- data['High'].max() over a nonempty frame. -/
def maxHigh : List Bar → ℚ
  | [] => 0
  | b :: bs => bs.foldl (fun m x => max m x.high) b.high

/- calculate_volume_profile (volume_profile.py lines 102-194). The empty
   frame returns the single degenerate bin (lines 113-119); otherwise bins
   span [min Low, max High], the per-bar allocation runs, and the profile
   is flagged. none embeds an uncaught exception. -/
def calculate_volume_profile (data : List Bar) (num_bins : ℕ) : Option (List VPBin) :=
  if data.isEmpty then
    some [{ price_low := 0, price_high := 0, price_mid := 0, volume := 0,
            value_area := false, point_of_control := true }]
  else
    let lo := minLow data
    let hi := maxHigh data
    let edges := binEdges lo hi num_bins
    match allocateAll edges num_bins (List.replicate num_bins 0) data with
    | some vols => finalize edges vols
    | none => none

end VolumeProfile

/- ------------------------------------------------------------------ -/
/- Helper lemmas: consensus engine                                     -/
/- ------------------------------------------------------------------ -/

namespace MeanAnalyzer

theorem loadedPreds_eq (s : PredStore) :
    loadedPreds s =
      (match s.deepseek with | some p => [("deepseek", p)] | none => []) ++
      (match s.gemini with | some p => [("gemini", p)] | none => []) ++
      [("groq", s.groq.getD groqDefault)] := by
  obtain ⟨d, g, q⟩ := s
  cases d <;> cases g <;> rfl

theorem loadedPreds_ne_nil (s : PredStore) : loadedPreds s ≠ [] := by
  rw [loadedPreds_eq]
  rcases s.deepseek with _ | p <;> rcases s.gemini with _ | p2 <;> simp

theorem loadedPreds_map_snd (s : PredStore) :
    (loadedPreds s).map Prod.snd = contributing s := by
  obtain ⟨d, g, q⟩ := s
  cases d <;> cases g <;> rfl

theorem tallyOne_buy (c : Counts) : tallyOne c "Buy" = .ok { c with buy := c.buy + 1 } := rfl

theorem tallyOne_sell (c : Counts) : tallyOne c "Sell" = .ok { c with sell := c.sell + 1 } := rfl

theorem tallyOne_hold (c : Counts) : tallyOne c "Hold" = .ok { c with hold := c.hold + 1 } := rfl

theorem tally_cons_ok (c c2 : Counts) (l : String) (ls : List String)
    (h : tallyOne c l = .ok c2) : tally c (l :: ls) = tally c2 ls := by
  simp [tally, h]

theorem tally_ok (ls : List String) (h : ∀ l ∈ ls, validLabel l) : ∀ c0 : Counts,
    tally c0 ls = .ok ⟨c0.buy + ls.count "Buy", c0.sell + ls.count "Sell",
      c0.hold + ls.count "Hold"⟩ := by
  induction ls with
  | nil => intro c0; simp [tally]
  | cons l ls ih =>
    intro c0
    have hl : validLabel l := h l (by simp)
    have hrest : ∀ x ∈ ls, validLabel x := fun x hx => h x (by simp [hx])
    rcases hl with h1 | h1 | h1 <;> subst h1
    · rw [tally_cons_ok _ _ _ _ (tallyOne_buy c0), ih hrest]
      simp [Counts.mk.injEq, List.count_cons]
      omega
    · rw [tally_cons_ok _ _ _ _ (tallyOne_sell c0), ih hrest]
      simp [Counts.mk.injEq, List.count_cons]
      omega
    · rw [tally_cons_ok _ _ _ _ (tallyOne_hold c0), ih hrest]
      simp [Counts.mk.injEq, List.count_cons]
      omega

end MeanAnalyzer

namespace MeanAnalyzer

theorem loadedPreds_isEmpty_false (s : PredStore) : (loadedPreds s).isEmpty = false := by
  rcases h : loadedPreds s with _ | ⟨p, ps⟩
  · exact absurd h (loadedPreds_ne_nil s)
  · rfl

theorem combine_ok_of_tally (sym tf : String) (s : PredStore) (now : ℕ) (counts : Counts)
    (htl : tally ⟨0, 0, 0⟩ ((loadedPreds s).map (fun p => p.2.prediction_label)) = .ok counts) :
    combine_predictions sym tf s now = .ok
      { symbol := sym, timeframe := tf, prediction_label := meanLabel counts,
        signal_strength := ((loadedPreds s).map (fun p => p.2.signal_strength)).sum /
          (loadedPreds s).length,
        agent_predictions := loadedPreds s, signal_counts := counts, timestamp := now } := by
  simp only [combine_predictions, loadedPreds_isEmpty_false, Bool.false_eq_true, if_false, htl]

theorem combine_err_of_tally (sym tf : String) (s : PredStore) (now : ℕ) (e : String)
    (htl : tally ⟨0, 0, 0⟩ ((loadedPreds s).map (fun p => p.2.prediction_label)) = .error e) :
    combine_predictions sym tf s now = .error (.keyError e) := by
  simp only [combine_predictions, loadedPreds_isEmpty_false, Bool.false_eq_true, if_false, htl]

theorem combine_eq_ok (sym tf : String) (s : PredStore) (now : ℕ) (r : MeanPrediction)
    (h : combine_predictions sym tf s now = .ok r) :
    ∃ counts,
      tally ⟨0, 0, 0⟩ ((loadedPreds s).map (fun p => p.2.prediction_label)) = .ok counts ∧
      r = { symbol := sym, timeframe := tf, prediction_label := meanLabel counts,
            signal_strength := ((loadedPreds s).map (fun p => p.2.signal_strength)).sum /
              (loadedPreds s).length,
            agent_predictions := loadedPreds s, signal_counts := counts, timestamp := now } := by
  cases htl : tally ⟨0, 0, 0⟩ ((loadedPreds s).map (fun p => p.2.prediction_label)) with
  | error e => rw [combine_err_of_tally sym tf s now e htl] at h; cases h
  | ok counts =>
    refine ⟨counts, rfl, ?_⟩
    rw [combine_ok_of_tally sym tf s now counts htl] at h
    exact (Except.ok.inj h).symm

theorem countOf_buy (c : Counts) : countOf c "Buy" = c.buy := rfl

theorem countOf_sell (c : Counts) : countOf c "Sell" = c.sell := rfl

theorem countOf_hold (c : Counts) : countOf c "Hold" = c.hold := rfl

theorem maxCount_attained (c : Counts) :
    maxCount c = c.buy ∨ maxCount c = c.sell ∨ maxCount c = c.hold := by
  unfold maxCount
  rcases max_choice c.buy (max c.sell c.hold) with h | h
  · exact Or.inl h
  · rw [h]
    rcases max_choice c.sell c.hold with h2 | h2
    · exact Or.inr (Or.inl h2)
    · exact Or.inr (Or.inr h2)

theorem meanLabels_ne_nil (c : Counts) : meanLabels c ≠ [] := by
  rcases maxCount_attained c with h | h | h <;>
    simp [meanLabels, ← h, List.append_eq_nil]

theorem mem_meanLabels_count (c : Counts) (l : String) (h : l ∈ meanLabels c) :
    countOf c l = maxCount c := by
  unfold meanLabels at h
  rcases List.mem_append.1 h with h1 | h1
  · rcases List.mem_append.1 h1 with h2 | h2
    · by_cases hb : c.buy = maxCount c
      · rw [if_pos hb] at h2; simp at h2; subst h2; rw [countOf_buy]; exact hb
      · rw [if_neg hb] at h2; simp at h2
    · by_cases hs : c.sell = maxCount c
      · rw [if_pos hs] at h2; simp at h2; subst h2; rw [countOf_sell]; exact hs
      · rw [if_neg hs] at h2; simp at h2
  · by_cases hh : c.hold = maxCount c
    · rw [if_pos hh] at h1; simp at h1; subst h1; rw [countOf_hold]; exact hh
    · rw [if_neg hh] at h1; simp at h1

theorem meanLabel_mem (c : Counts) : meanLabel c ∈ meanLabels c := by
  by_cases hc : 1 < (meanLabels c).length ∧ "Hold" ∈ meanLabels c
  · rw [meanLabel, if_pos hc]; exact hc.2
  · rw [meanLabel, if_neg hc]
    rcases hml : meanLabels c with _ | ⟨a, as⟩
    · exact absurd hml (meanLabels_ne_nil c)
    · simp

theorem meanLabel_tie_no_hold (c : Counts) (hlen : 1 < (meanLabels c).length)
    (hh : "Hold" ∉ meanLabels c) : meanLabel c = "Buy" := by
  by_cases hb : c.buy = maxCount c <;> by_cases hs : c.sell = maxCount c <;>
    by_cases hhd : c.hold = maxCount c <;>
    simp_all [meanLabels, meanLabel]

end MeanAnalyzer

namespace MeanAnalyzer

theorem tally_error (ls : List String) : ∀ c0 : Counts,
    (∃ l ∈ ls, ¬ validLabel l) → ∃ e, tally c0 ls = .error e := by
  induction ls with
  | nil => intro c0 hbad; simp at hbad
  | cons l ls ih =>
    intro c0 hbad
    by_cases hl : validLabel l
    · have hbad2 : ∃ x ∈ ls, ¬ validLabel x := by
        obtain ⟨x, hx, hxb⟩ := hbad
        rcases List.mem_cons.1 hx with rfl | hx2
        · exact absurd hl hxb
        · exact ⟨x, hx2, hxb⟩
      rcases hl with h1 | h1 | h1 <;> subst h1
      · obtain ⟨e, he⟩ := ih _ hbad2
        exact ⟨e, by rw [tally_cons_ok _ _ _ _ (tallyOne_buy c0)]; exact he⟩
      · obtain ⟨e, he⟩ := ih _ hbad2
        exact ⟨e, by rw [tally_cons_ok _ _ _ _ (tallyOne_sell c0)]; exact he⟩
      · obtain ⟨e, he⟩ := ih _ hbad2
        exact ⟨e, by rw [tally_cons_ok _ _ _ _ (tallyOne_hold c0)]; exact he⟩
    · refine ⟨l, ?_⟩
      have hone : tallyOne c0 l = .error l := by
        unfold tallyOne
        unfold validLabel at hl
        rw [if_neg (fun hc => hl (Or.inl hc)), if_neg (fun hc => hl (Or.inr (Or.inl hc))),
          if_neg (fun hc => hl (Or.inr (Or.inr hc)))]
      simp [tally, hone]

/-- C1 counterexample: with records only for deepseek (confidence 0.8) and
gemini (confidence 0.6) and no groq record, the claim says the consensus
confidence is (0.8 + 0.6) / 2 = 0.7, but the engine fabricates a default
groq record with confidence 0.5 and returns (0.8 + 0.6 + 0.5) / 3 = 19/30. -/
theorem C1_counterexample :
    (combine_predictions "NQ" "intraday"
        ⟨some ⟨"Buy", 4/5⟩, some ⟨"Sell", 3/5⟩, none⟩ 0).toOption.map
      MeanPrediction.signal_strength = some (19/30) ∧ ((19 : ℚ)/30) ≠ 7/10 := by
  have h := combine_ok_of_tally "NQ" "intraday"
    ⟨some ⟨"Buy", 4/5⟩, some ⟨"Sell", 3/5⟩, none⟩ 0 ⟨1, 1, 1⟩ rfl
  constructor
  · rw [h]
    have hl : (loadedPreds ⟨some ⟨"Buy", 4/5⟩, some ⟨"Sell", 3/5⟩, none⟩).map
        (fun p => p.2.signal_strength) = [4/5, 3/5, 1/2] := rfl
    have hlen : (loadedPreds ⟨some ⟨"Buy", 4/5⟩, some ⟨"Sell", 3/5⟩, none⟩).length = 3 := rfl
    simp only [Except.toOption, Option.map, hl, hlen, List.sum_cons, List.sum_nil,
      Option.some.injEq]
    norm_num
  · norm_num

/-- C1 amended: the consensus confidence is the arithmetic mean of the
confidences of the contributing records, where deepseek and gemini
contribute only when their record exists, while a missing groq record is
replaced by the fabricated default with confidence 0.5 (so groq always
contributes). In particular with all three records present the result is
the three-way mean, e.g. (0.8 + 0.6 + 0.9) / 3. -/
theorem C1_amended_mean_includes_fabricated_groq_default (sym tf : String) (s : PredStore)
    (now : ℕ) (r : MeanPrediction) (h : combine_predictions sym tf s now = .ok r) :
    r.signal_strength =
      ((contributing s).map Prediction.signal_strength).sum / ((contributing s).length : ℚ) ∧
    (∀ p1 p2 p3 : Prediction, s = ⟨some p1, some p2, some p3⟩ →
      r.signal_strength =
        (p1.signal_strength + p2.signal_strength + p3.signal_strength) / 3) := by
  obtain ⟨counts, htl, hr⟩ := combine_eq_ok sym tf s now r h
  subst hr
  have hmap := loadedPreds_map_snd s
  have hlen : ((loadedPreds s).length : ℚ) = ((contributing s).length : ℚ) := by
    rw [← hmap, List.length_map]
  have hsnd : (loadedPreds s).map (fun p => p.2.signal_strength) =
      (contributing s).map Prediction.signal_strength := by
    rw [← hmap, List.map_map]
    rfl
  constructor
  · show ((loadedPreds s).map (fun p => p.2.signal_strength)).sum /
      ((loadedPreds s).length : ℚ) = _
    rw [hsnd, hlen]
  · intro p1 p2 p3 hs
    subst hs
    show ((loadedPreds _).map (fun p => p.2.signal_strength)).sum /
      ((loadedPreds _).length : ℚ) = _
    have : loadedPreds ⟨some p1, some p2, some p3⟩ =
        [("deepseek", p1), ("gemini", p2), ("groq", p3)] := rfl
    rw [this]
    simp
    ring

/-- C1 witness: with all three records present (confidences 0.8, 0.6, 0.9) the
consensus confidence is their three-way arithmetic mean. -/
theorem C1_witness :
    (combine_predictions "NQ" "intraday"
        ⟨some ⟨"Buy", 4/5⟩, some ⟨"Buy", 3/5⟩, some ⟨"Sell", 9/10⟩⟩ 0).toOption.map
      MeanPrediction.signal_strength = some ((4/5 + 3/5 + 9/10) / 3) := by
  have h := combine_ok_of_tally "NQ" "intraday"
    ⟨some ⟨"Buy", 4/5⟩, some ⟨"Buy", 3/5⟩, some ⟨"Sell", 9/10⟩⟩ 0 ⟨2, 1, 0⟩ rfl
  have h2 := (C1_amended_mean_includes_fabricated_groq_default "NQ" "intraday"
    ⟨some ⟨"Buy", 4/5⟩, some ⟨"Buy", 3/5⟩, some ⟨"Sell", 9/10⟩⟩ 0 _ h).2
    ⟨"Buy", 4/5⟩ ⟨"Buy", 3/5⟩ ⟨"Sell", 9/10⟩ rfl
  rw [h]
  simp only [Except.toOption, Option.map, Option.some.injEq]
  exact h2

/-- C5: for every prediction store whose loaded records carry only the labels
Buy, Sell, Hold, the consensus label attains the maximum vote count; when the
maximum is tied and Hold is among the tied labels the result is Hold; when the
tie excludes Hold the first label of the fixed comprehension order Buy, Sell,
Hold is chosen (so a Buy/Sell tie yields Buy); and the tally is a pure count,
invariant under permutation of the label sequence. -/
theorem C5_consensus_majority_and_tie_rules (sym tf : String) (s : PredStore) (now : ℕ)
    (r : MeanPrediction)
    (hvalid : ∀ p ∈ loadedPreds s, validLabel p.2.prediction_label)
    (h : combine_predictions sym tf s now = .ok r) :
    countOf r.signal_counts r.prediction_label = maxCount r.signal_counts ∧
    ((1 < (meanLabels r.signal_counts).length ∧ "Hold" ∈ meanLabels r.signal_counts) →
      r.prediction_label = "Hold") ∧
    (∀ c : Counts, 1 < (meanLabels c).length → "Hold" ∉ meanLabels c → meanLabel c = "Buy") ∧
    (∀ ls1 ls2 : List String, (∀ l ∈ ls1, validLabel l) → ls1.Perm ls2 →
      tally ⟨0, 0, 0⟩ ls1 = tally ⟨0, 0, 0⟩ ls2) := by
  obtain ⟨counts, htl, hr⟩ := combine_eq_ok sym tf s now r h
  subst hr
  refine ⟨?_, ?_, ?_, ?_⟩
  · exact mem_meanLabels_count _ _ (meanLabel_mem counts)
  · intro hc
    show meanLabel counts = "Hold"
    rw [meanLabel, if_pos hc]
  · exact fun c hl hh => meanLabel_tie_no_hold c hl hh
  · intro ls1 ls2 hv hperm
    rw [tally_ok ls1 hv ⟨0, 0, 0⟩,
      tally_ok ls2 (fun l hl => hv l (hperm.mem_iff.2 hl)) ⟨0, 0, 0⟩]
    have hb := hperm.count_eq "Buy"
    have hs := hperm.count_eq "Sell"
    have hh := hperm.count_eq "Hold"
    rw [hb, hs, hh]

/-- C5 witness: one Buy, one Sell and one Hold vote tie at the maximum, and
the consensus label is Hold. -/
theorem C5_witness :
    countOf ⟨1, 1, 1⟩ (meanLabel ⟨1, 1, 1⟩) = maxCount ⟨1, 1, 1⟩ ∧
    meanLabel ⟨1, 1, 1⟩ = "Hold" := by
  have h := combine_ok_of_tally "NQ" "5d"
    ⟨some ⟨"Buy", 1/2⟩, some ⟨"Sell", 1/2⟩, some ⟨"Hold", 1/2⟩⟩ 0 ⟨1, 1, 1⟩ rfl
  have hc := C5_consensus_majority_and_tie_rules "NQ" "5d"
    ⟨some ⟨"Buy", 1/2⟩, some ⟨"Sell", 1/2⟩, some ⟨"Hold", 1/2⟩⟩ 0 _ (by decide) h
  exact ⟨hc.1, hc.2.1 (by decide)⟩

/-- C6 counterexample: with zero prediction records available the engine does
not fail; it returns a consensus with label Hold and writes the artifact. -/
theorem C6_counterexample :
    (combine_predictions "NQ" "intraday" ⟨none, none, none⟩ 0).toOption.map
        MeanPrediction.prediction_label = some "Hold" ∧
    (runCombine "NQ" "intraday" ⟨none, none, none⟩ 0 (fun _ => none)
        ("NQ", "intraday")).isSome = true := by
  have h := combine_ok_of_tally "NQ" "intraday" ⟨none, none, none⟩ 0 ⟨0, 0, 1⟩ rfl
  constructor
  · rw [h]; rfl
  · simp [runCombine, h, writeArtifact]

/-- C6 amended: the no-predictions error branch is unreachable, because a
missing groq record is always replaced by the fabricated default; with zero
records available the engine succeeds with label Hold and confidence 0.5 and
the artifact for the key is written, contrary to the claimed
NoPredictionsAvailable failure. -/
theorem C6_amended_noPredictions_unreachable :
    (∀ (sym tf : String) (s : PredStore) (now : ℕ),
       combine_predictions sym tf s now ≠ .error .noPredictions) ∧
    (∀ (sym tf : String) (now : ℕ) (a : ArtifactStore),
       combine_predictions sym tf ⟨none, none, none⟩ now =
         .ok { symbol := sym, timeframe := tf, prediction_label := "Hold",
               signal_strength := 1/2, agent_predictions := [("groq", groqDefault)],
               signal_counts := ⟨0, 0, 1⟩, timestamp := now } ∧
       runCombine sym tf ⟨none, none, none⟩ now a (sym, tf) =
         some { symbol := sym, timeframe := tf, prediction_label := "Hold",
                signal_strength := 1/2, agent_predictions := [("groq", groqDefault)],
                signal_counts := ⟨0, 0, 1⟩, timestamp := now }) := by
  constructor
  · intro sym tf s now hcontra
    cases htl : tally ⟨0, 0, 0⟩ ((loadedPreds s).map fun p => p.2.prediction_label) with
    | error e =>
      rw [combine_err_of_tally sym tf s now e htl] at hcontra
      simp at hcontra
    | ok c =>
      rw [combine_ok_of_tally sym tf s now c htl] at hcontra
      exact Except.noConfusion hcontra
  · intro sym tf now a
    have h := combine_ok_of_tally sym tf ⟨none, none, none⟩ now ⟨0, 0, 1⟩ rfl
    have heq : combine_predictions sym tf ⟨none, none, none⟩ now =
        .ok { symbol := sym, timeframe := tf, prediction_label := "Hold",
              signal_strength := 1/2, agent_predictions := [("groq", groqDefault)],
              signal_counts := ⟨0, 0, 1⟩, timestamp := now } := by
      rw [h]
      have hml : meanLabel ⟨0, 0, 1⟩ = "Hold" := rfl
      have hmap : (loadedPreds ⟨none, none, none⟩).map (fun p => p.2.signal_strength) =
          [1/2] := rfl
      have hlen : (loadedPreds ⟨none, none, none⟩).length = 1 := rfl
      have hss : ((loadedPreds ⟨none, none, none⟩).map (fun p => p.2.signal_strength)).sum /
          ((loadedPreds ⟨none, none, none⟩).length : ℚ) = 1/2 := by
        rw [hmap, hlen]
        norm_num
      rw [hml, hss]
      rfl
    refine ⟨heq, ?_⟩
    simp [runCombine, heq, writeArtifact]

/-- C9: rerunning the aggregation on an unchanged prediction store yields a
record identical in every field except the top-level timestamp, and the second
run fully overwrites the artifact written by the first (last write wins). -/
theorem C9_rerun_identical_except_timestamp (sym tf : String) (s : PredStore) (t1 t2 : ℕ)
    (a : ArtifactStore) (r1 r2 : MeanPrediction)
    (h1 : combine_predictions sym tf s t1 = .ok r1)
    (h2 : combine_predictions sym tf s t2 = .ok r2) :
    r1 = { r2 with timestamp := t1 } ∧
    runCombine sym tf s t2 (runCombine sym tf s t1 a) (sym, tf) = some r2 := by
  obtain ⟨c1, htl1, hr1⟩ := combine_eq_ok sym tf s t1 r1 h1
  obtain ⟨c2, htl2, hr2⟩ := combine_eq_ok sym tf s t2 r2 h2
  rw [htl1] at htl2
  have hc := Except.ok.inj htl2
  subst hc
  subst hr1
  subst hr2
  constructor
  · rfl
  · simp [runCombine, h2, writeArtifact]

/-- C9 witness: two runs at timestamps 5 and 9 on the same store leave the
artifact of the second run, which carries timestamp 9. -/
theorem C9_witness :
    (runCombine "ES" "30d" ⟨some ⟨"Buy", 4/5⟩, none, none⟩ 9
        (runCombine "ES" "30d" ⟨some ⟨"Buy", 4/5⟩, none, none⟩ 5 (fun _ => none))
        ("ES", "30d")).map MeanPrediction.timestamp = some 9 := by
  have h1 := combine_ok_of_tally "ES" "30d" ⟨some ⟨"Buy", 4/5⟩, none, none⟩ 5 ⟨1, 0, 1⟩ rfl
  have h2 := combine_ok_of_tally "ES" "30d" ⟨some ⟨"Buy", 4/5⟩, none, none⟩ 9 ⟨1, 0, 1⟩ rfl
  have hw := (C9_rerun_identical_except_timestamp "ES" "30d"
    ⟨some ⟨"Buy", 4/5⟩, none, none⟩ 5 9 (fun _ => none) _ _ h1 h2).2
  rw [hw]
  rfl

/-- C10: the vote tally is total exactly under the precondition that every
loaded record's label is Buy, Sell or Hold: any other label makes
combine_predictions fail with the KeyError embedding before any artifact is
written, and under the precondition the aggregation succeeds. -/
theorem C10_tally_total_iff_valid_labels (sym tf : String) (s : PredStore) (now : ℕ) :
    ((∃ p ∈ loadedPreds s, ¬ validLabel p.2.prediction_label) →
       (∃ l, combine_predictions sym tf s now = .error (.keyError l)) ∧
       ∀ a : ArtifactStore, runCombine sym tf s now a = a) ∧
    ((∀ p ∈ loadedPreds s, validLabel p.2.prediction_label) →
       ∃ r, combine_predictions sym tf s now = .ok r) := by
  constructor
  · intro hbad
    have hbad2 : ∃ l ∈ (loadedPreds s).map (fun p => p.2.prediction_label),
        ¬ validLabel l := by
      obtain ⟨p, hp, hpb⟩ := hbad
      exact ⟨p.2.prediction_label, List.mem_map_of_mem _ hp, hpb⟩
    obtain ⟨e, he⟩ := tally_error _ ⟨0, 0, 0⟩ hbad2
    have hc := combine_err_of_tally sym tf s now e he
    exact ⟨⟨e, hc⟩, fun a => by simp [runCombine, hc]⟩
  · intro hv
    have hv2 : ∀ l ∈ (loadedPreds s).map (fun p => p.2.prediction_label), validLabel l := by
      intro l hl
      obtain ⟨p, hp, hpe⟩ := List.mem_map.1 hl
      rw [← hpe]
      exact hv p hp
    exact ⟨_, combine_ok_of_tally sym tf s now _ (tally_ok _ hv2 ⟨0, 0, 0⟩)⟩

/-- C10 witness: a lowercase label "buy" makes the aggregation fail with the
KeyError embedding and leaves the artifact store untouched, while the same
store with the proper label "Buy" aggregates successfully. -/
theorem C10_witness :
    ((∃ l, combine_predictions "YM" "5d" ⟨some ⟨"buy", 4/5⟩, none, none⟩ 0 =
        .error (.keyError l)) ∧
      ∀ a : ArtifactStore, runCombine "YM" "5d" ⟨some ⟨"buy", 4/5⟩, none, none⟩ 0 a = a) ∧
    (∃ r, combine_predictions "YM" "5d" ⟨some ⟨"Buy", 4/5⟩, none, none⟩ 0 = .ok r) :=
  ⟨(C10_tally_total_iff_valid_labels "YM" "5d" ⟨some ⟨"buy", 4/5⟩, none, none⟩ 0).1
     (by decide),
   (C10_tally_total_iff_valid_labels "YM" "5d" ⟨some ⟨"Buy", 4/5⟩, none, none⟩ 0).2
     (by decide)⟩

end MeanAnalyzer

/- ------------------------------------------------------------------ -/
/- Helper lemmas: technical indicators                                 -/
/- ------------------------------------------------------------------ -/

namespace TechnicalIndicators

theorem getD_range_map {α : Type} (f : ℕ → α) (d : α) : ∀ (m k : ℕ),
    ((List.range m).map f).getD k d = if k < m then f k else d := by
  intro m
  induction m generalizing f with
  | zero => intro k; simp
  | succ m ih =>
    intro k
    rw [List.range_succ_eq_map, List.map_cons, List.map_map]
    cases k with
    | zero => simp
    | succ k =>
      show ((List.range m).map (f ∘ Nat.succ)).getD k d = _
      rw [ih (f ∘ Nat.succ) k]
      simp only [Function.comp]
      by_cases hk : k < m
      · rw [if_pos hk, if_pos (by omega)]
      · rw [if_neg hk, if_neg (by omega)]

theorem getD_replicate (n k : ℕ) (c : ℚ) :
    (List.replicate n c).getD k 0 = if k < n then c else 0 := by
  induction n generalizing k with
  | zero => simp
  | succ n ih =>
    rw [List.replicate_succ]
    cases k with
    | zero => simp
    | succ k =>
      show (List.replicate n c).getD k 0 = _
      rw [ih k]
      by_cases hk : k < n
      · rw [if_pos hk, if_pos (by omega)]
      · rw [if_neg hk, if_neg (by omega)]

theorem length_gains (closes : List ℚ) : (gains closes).length = closes.length := by
  simp [gains]

theorem length_losses (closes : List ℚ) : (losses closes).length = closes.length := by
  simp [losses]

theorem gains_replicate_getD (n : ℕ) (c : ℚ) (k : ℕ) :
    (gains (List.replicate n c)).getD k 0 = 0 := by
  unfold gains
  rw [List.length_replicate, getD_range_map]
  split
  · split
    · rfl
    · rw [getD_replicate, getD_replicate, if_pos (by omega), if_pos (by omega)]
      simp
  · rfl

theorem losses_replicate_getD (n : ℕ) (c : ℚ) (k : ℕ) :
    (losses (List.replicate n c)).getD k 0 = 0 := by
  unfold losses
  rw [List.length_replicate, getD_range_map]
  split
  · split
    · rfl
    · rw [getD_replicate, getD_replicate, if_pos (by omega), if_pos (by omega)]
      simp
  · rfl

theorem rollingMean_zero_of_getD_zero (period : ℕ) (l : List ℚ) (i : ℕ)
    (hz : ∀ k, l.getD k 0 = 0) (hc : ¬ (i + 1 < period ∨ l.length ≤ i)) :
    rollingMean period l i = some 0 := by
  rw [rollingMean, if_neg hc]
  have hsum : (((List.range period).map (fun j => l.getD (i - j) 0))).sum = 0 := by
    apply List.sum_eq_zero
    intro x hx
    obtain ⟨j, _, rfl⟩ := List.mem_map.1 hx
    exact hz (i - j)
  rw [hsum, zero_div]

theorem rsiAt_replicate (n period i : ℕ) (c : ℚ) :
    rsiAt (List.replicate n c) period i = none := by
  by_cases hc : i + 1 < period ∨ (gains (List.replicate n c)).length ≤ i
  · have hg : rollingMean period (gains (List.replicate n c)) i = none := by
      rw [rollingMean, if_pos hc]
    have hl : rollingMean period (losses (List.replicate n c)) i = none := by
      rw [rollingMean, if_pos (by
        rw [length_losses]
        rw [length_gains] at hc
        exact hc)]
    rw [rsiAt, hg, hl]
  · have hg : rollingMean period (gains (List.replicate n c)) i = some 0 :=
      rollingMean_zero_of_getD_zero _ _ _ (gains_replicate_getD n c) hc
    have hl : rollingMean period (losses (List.replicate n c)) i = some 0 :=
      rollingMean_zero_of_getD_zero _ _ _ (losses_replicate_getD n c) (by
        rw [length_losses]
        rw [length_gains] at hc
        exact hc)
    rw [rsiAt, hg, hl]
    simp

theorem ewmaFrom_const (a c : ℚ) : ∀ k, ewmaFrom a c (List.replicate k c) = List.replicate k c := by
  intro k
  induction k with
  | zero => rfl
  | succ m ih =>
    rw [List.replicate_succ]
    show ((1 - a) * c + a * c) :: ewmaFrom a ((1 - a) * c + a * c) (List.replicate m c) =
      c :: List.replicate m c
    have h : (1 - a) * c + a * c = c := by ring
    rw [h, ih]

theorem ewmMean_const (span n : ℕ) (c : ℚ) :
    ewmMean span (List.replicate n c) = List.replicate n c := by
  cases n with
  | zero => rfl
  | succ m =>
    rw [List.replicate_succ]
    show c :: ewmaFrom (2 / (span + 1)) c (List.replicate m c) = c :: List.replicate m c
    rw [ewmaFrom_const]

theorem zipWith_sub_const (n : ℕ) (c : ℚ) :
    List.zipWith (fun x y => x - y) (List.replicate n c) (List.replicate n c) =
      List.replicate n 0 := by
  induction n with
  | zero => rfl
  | succ m ih =>
    rw [List.replicate_succ, List.replicate_succ, List.zipWith_cons_cons, ih, sub_self]

theorem macd_hist_replicate (fast slow sp : ℕ) (n : ℕ) (c : ℚ) :
    (calculate_macd (List.replicate n c) fast slow sp).histogram = List.replicate n 0 := by
  unfold calculate_macd
  simp only [ewmMean_const, zipWith_sub_const]

end TechnicalIndicators

namespace TechnicalIndicators

/-- C4 counterexample: on 26 bars of constant close the RSI at index 20 (well
past the 14-bar warm-up, where the claim expects the value 50) is undefined,
because avg_gain / avg_loss is 0 / 0, which is NaN in the source; NaN is not
the numeric value 50. -/
theorem C4_counterexample :
    (calculate_rsi (List.replicate 26 (100 : ℚ)) 14).getD 20 (some 0) = none ∧
    (none : Option ℚ) ≠ some 50 := by
  constructor
  · unfold calculate_rsi
    rw [List.length_replicate, getD_range_map, if_pos (by omega), rsiAt_replicate]
  · simp

/-- C4 amended: for every series of at least 26 bars with constant close, the
MACD histogram is 0 at every point, and the RSI is undefined (NaN, embedded
none) at every point, because both the average gain and the average loss are
0 and their ratio is 0 / 0; the RSI is never the numeric value 50. -/
theorem C4_amended_hist_zero_rsi_undefined (n : ℕ) (c : ℚ) (hn : 26 ≤ n) :
    (∀ x ∈ (calculate_macd (List.replicate n c) 12 26 9).histogram, x = 0) ∧
    (∀ v ∈ calculate_rsi (List.replicate n c) 14, v = none) := by
  constructor
  · intro x hx
    rw [macd_hist_replicate] at hx
    exact List.eq_of_mem_replicate hx
  · intro v hv
    unfold calculate_rsi at hv
    obtain ⟨i, _, rfl⟩ := List.mem_map.1 hv
    exact rsiAt_replicate n 14 i c

/-- C4 witness: the amended statement at 26 bars of constant close 100. -/
theorem C4_witness :
    26 ≤ 26 ∧
    ((∀ x ∈ (calculate_macd (List.replicate 26 (100 : ℚ)) 12 26 9).histogram, x = 0) ∧
     (∀ v ∈ calculate_rsi (List.replicate 26 (100 : ℚ)) 14, v = none)) :=
  ⟨by decide, C4_amended_hist_zero_rsi_undefined 26 100 (by decide)⟩

end TechnicalIndicators

namespace VolumeProfile

/-- C8: the empty bar series yields, for any bin count, exactly one degenerate
bin with zero prices and volume, value-area flag false and point-of-control
flag true, and no exception is raised. -/
theorem C8_empty_series_degenerate_bin (n : ℕ) :
    calculate_volume_profile [] n =
      some [{ price_low := 0, price_high := 0, price_mid := 0, volume := 0,
              value_area := false, point_of_control := true }] := rfl

end VolumeProfile

/- ------------------------------------------------------------------ -/
/- Helper lemmas: volume profile                                       -/
/- ------------------------------------------------------------------ -/

namespace VolumeProfile

theorem length_addIdx (g : ℕ → ℚ) (l : List ℚ) : (addIdx g l).length = l.length := by
  induction l generalizing g with
  | nil => rfl
  | cons v vs ih => simp [addIdx, ih]

theorem sum_addIdx (g : ℕ → ℚ) (l : List ℚ) :
    (addIdx g l).sum = l.sum + ∑ i ∈ Finset.range l.length, g i := by
  induction l generalizing g with
  | nil => simp [addIdx]
  | cons v vs ih =>
    rw [List.length_cons, Finset.sum_range_succ']
    show (v + g 0) + (addIdx (fun k => g (k + 1)) vs).sum = _
    rw [ih (fun k => g (k + 1)), List.sum_cons]
    ring

theorem edgeF_zero (lo hi : ℚ) (n : ℕ) : edgeF lo hi n 0 = lo := by
  unfold edgeF
  simp

theorem edgeF_n (lo hi : ℚ) (n : ℕ) (hn : n ≠ 0) : edgeF lo hi n n = hi := by
  unfold edgeF
  have : (n : ℚ) ≠ 0 := Nat.cast_ne_zero.2 hn
  field_simp

theorem edgeF_mono (lo hi : ℚ) (n : ℕ) (hlohi : lo ≤ hi) {j k : ℕ} (hjk : j ≤ k) :
    edgeF lo hi n j ≤ edgeF lo hi n k := by
  unfold edgeF
  rcases Nat.eq_zero_or_pos n with hn | hn
  · subst hn
    simp
  · have hnq : (0 : ℚ) < (n : ℚ) := by exact_mod_cast hn
    have hj2 : (j : ℚ) ≤ (k : ℚ) := by exact_mod_cast hjk
    have hsub : (0 : ℚ) ≤ hi - lo := sub_nonneg.2 hlohi
    apply add_le_add_left
    gcongr

theorem binEdges_getD (lo hi : ℚ) (n j : ℕ) (hj : j < n + 1) :
    (binEdges lo hi n).getD j 0 = edgeF lo hi n j := by
  unfold binEdges
  rw [TechnicalIndicators.getD_range_map, if_pos hj]

theorem length_filter_map_eq (f : ℕ → ℚ) (p : ℚ → Bool) : ∀ l : List ℕ,
    ((l.map f).filter p).length = (l.filter (fun j => p (f j))).length := by
  intro l
  induction l with
  | nil => rfl
  | cons a l ih =>
    rw [List.map_cons, List.filter_cons, List.filter_cons]
    by_cases hp : p (f a)
    · rw [if_pos hp, if_pos hp, List.length_cons, List.length_cons, ih]
    · rw [if_neg hp, if_neg hp, ih]

theorem filter_range_eq_range (p : ℕ → Bool) : ∀ m : ℕ,
    (∀ j k, j ≤ k → k < m → p k = true → p j = true) →
    (List.range m).filter p = List.range ((List.range m).filter p).length := by
  intro m
  induction m with
  | zero => intro _; rfl
  | succ m ih =>
    intro hdc
    rw [List.range_succ, List.filter_append]
    by_cases hp : p m
    · have hall : (List.range m).filter p = List.range m := by
        rw [List.filter_eq_self]
        intro a ha
        exact hdc a m (by exact Nat.le_of_lt (List.mem_range.1 ha)) (by omega) hp
      rw [hall]
      simp [hp, List.range_succ]
    · have hnil : [m].filter p = [] := by simp [hp]
      rw [hnil, List.append_nil]
      exact ih (fun j k hjk hk hpk => hdc j k hjk (by omega) hpk)

theorem searchsorted_binEdges (lo hi : ℚ) (n : ℕ) (v : ℚ) :
    searchsorted (binEdges lo hi n) v =
      ((List.range (n + 1)).filter (fun j => decide (edgeF lo hi n j < v))).length := by
  unfold searchsorted binEdges
  rw [length_filter_map_eq]

theorem ss_lt_iff (lo hi : ℚ) (n : ℕ) (v : ℚ) (hlohi : lo ≤ hi) (j : ℕ) (hj : j < n + 1) :
    edgeF lo hi n j < v ↔ j < searchsorted (binEdges lo hi n) v := by
  rw [searchsorted_binEdges]
  have hdc : ∀ a b, a ≤ b → b < n + 1 → decide (edgeF lo hi n b < v) = true →
      decide (edgeF lo hi n a < v) = true := by
    intro a b hab _ hb
    rw [decide_eq_true_eq] at hb ⊢
    exact lt_of_le_of_lt (edgeF_mono lo hi n hlohi hab) hb
  have hfr := filter_range_eq_range (fun j => decide (edgeF lo hi n j < v)) (n + 1) hdc
  constructor
  · intro hlt
    have hmem : j ∈ (List.range (n + 1)).filter (fun j => decide (edgeF lo hi n j < v)) := by
      rw [List.mem_filter]
      exact ⟨List.mem_range.2 hj, decide_eq_true hlt⟩
    rw [hfr] at hmem
    exact List.mem_range.1 hmem
  · intro hlt
    have hmem : j ∈ List.range
        (((List.range (n + 1)).filter (fun j => decide (edgeF lo hi n j < v))).length) :=
      List.mem_range.2 hlt
    rw [← hfr] at hmem
    rw [List.mem_filter] at hmem
    exact of_decide_eq_true hmem.2

theorem ss_le_len (edges : List ℚ) (v : ℚ) : searchsorted edges v ≤ edges.length :=
  List.length_filter_le _ _

theorem ss_le_n (lo hi : ℚ) (n : ℕ) (v : ℚ) (hlohi : lo ≤ hi) (hn : n ≠ 0) (hv : v ≤ hi) :
    searchsorted (binEdges lo hi n) v ≤ n := by
  by_contra hcontra
  have hsslen : searchsorted (binEdges lo hi n) v ≤ n + 1 := by
    have := ss_le_len (binEdges lo hi n) v
    simpa [binEdges] using this
  have hn_lt : n < searchsorted (binEdges lo hi n) v := by omega
  have := (ss_lt_iff lo hi n v hlohi n (by omega)).2 hn_lt
  rw [edgeF_n lo hi n hn] at this
  exact absurd hv (not_le.2 this)

theorem length_filter_mono (p q : ℕ → Bool) : ∀ l : List ℕ,
    (∀ a ∈ l, p a = true → q a = true) →
    (l.filter p).length ≤ (l.filter q).length := by
  intro l
  induction l with
  | nil => intro _; exact Nat.le_refl 0
  | cons a l ih =>
    intro h
    rw [List.filter_cons, List.filter_cons]
    have hrest := ih (fun x hx hp => h x (List.mem_cons_of_mem a hx) hp)
    by_cases hp : p a
    · rw [if_pos hp, if_pos (h a (List.mem_cons_self a l) hp)]
      simpa using hrest
    · rw [if_neg hp]
      by_cases hq : q a
      · rw [if_pos hq]
        exact Nat.le_succ_of_le hrest
      · rw [if_neg hq]
        exact hrest

theorem ss_mono (lo hi : ℚ) (n : ℕ) (v w : ℚ) (hvw : v ≤ w) :
    searchsorted (binEdges lo hi n) v ≤ searchsorted (binEdges lo hi n) w := by
  rw [searchsorted_binEdges, searchsorted_binEdges]
  apply length_filter_mono
  intro a _ hp
  rw [decide_eq_true_eq] at hp ⊢
  exact lt_of_lt_of_le hp hvw

end VolumeProfile

namespace VolumeProfile

theorem sum_Ico_telescope (g : ℕ → ℚ) : ∀ bnd a : ℕ, a ≤ bnd →
    (∑ k ∈ Finset.Ico a bnd, (g (k + 1) - g k)) = g bnd - g a := by
  intro bnd
  induction bnd with
  | zero =>
    intro a ha
    have : a = 0 := Nat.le_zero.1 ha
    subst this
    simp
  | succ bnd ih =>
    intro a ha
    by_cases hab : a ≤ bnd
    · rw [Finset.sum_Ico_succ_top hab, ih a hab]
      ring
    · have : a = bnd + 1 := by omega
      subst this
      simp

theorem allocate_some (lo hi : ℚ) (n : ℕ) (vols : List ℚ) (b : Bar) (vols2 : List ℚ)
    (hn : n ≠ 0) (hlen : vols.length = n)
    (hlo : lo ≤ b.low) (hwf : b.low ≤ b.high) (hhi : b.high ≤ hi)
    (h : allocate (binEdges lo hi n) n vols b = some vols2) :
    vols2.sum = vols.sum + b.volume ∧ vols2.length = n := by
  have hlohi : lo ≤ hi := le_trans hlo (le_trans hwf hhi)
  unfold allocate at h
  set s1 := searchsorted (binEdges lo hi n) b.low with hs1def
  set s2 := searchsorted (binEdges lo hi n) b.high with hs2def
  by_cases hbranch : ((s1 : ℤ) - 1 = (s2 : ℤ) - 1)
  · rw [if_pos hbranch] at h
    by_cases hguard : ((0 : ℤ) ≤ (s1 : ℤ) - 1 ∧ (s1 : ℤ) - 1 < (n : ℤ))
    · rw [if_pos hguard] at h
      have hv2 := (Option.some.inj h).symm
      subst hv2
      constructor
      · rw [sum_addIdx, hlen]
        have hs1pos : 1 ≤ s1 := by omega
        have hj : s1 - 1 < n := by omega
        have hcongr : ∀ k ∈ Finset.range n,
            (if ((k : ℤ) = (s1 : ℤ) - 1) then b.volume else 0) =
            (if (k = s1 - 1) then b.volume else 0) := by
          intro k _
          by_cases hk : k = s1 - 1
          · rw [if_pos hk, if_pos (by omega)]
          · rw [if_neg hk, if_neg (by omega)]
        rw [Finset.sum_congr rfl hcongr, Finset.sum_ite_eq' (Finset.range n) (s1 - 1)
          (fun _ => b.volume), if_pos (Finset.mem_range.2 hj)]
      · rw [length_addIdx, hlen]
    · rw [if_neg hguard] at h
      cases h
  · rw [if_neg hbranch] at h
    have hv2 := (Option.some.inj h).symm
    subst hv2
    refine ⟨?_, by rw [length_addIdx, hlen]⟩
    rw [sum_addIdx, hlen]
    have hs1ne : s1 ≠ s2 := by omega
    have hlh : b.low < b.high := by
      rcases lt_or_eq_of_le hwf with h1 | h1
      · exact h1
      · exact absurd (by rw [hs1def, hs2def, h1]) hs1ne
    have hDelta : b.high - b.low ≠ 0 := ne_of_gt (sub_pos.2 hlh)
    have hs12 : s1 ≤ s2 := ss_mono lo hi n b.low b.high (le_of_lt hlh)
    have hs2n : s2 ≤ n := ss_le_n lo hi n b.high hlohi hn hhi
    set g : ℕ → ℚ := fun j => max b.low (min (edgeF lo hi n j) b.high) with hgdef
    have hcongr : ∀ k ∈ Finset.range n,
        (if ((s1 : ℤ) - 1 ≤ (k : ℤ) ∧ (k : ℤ) < (s2 : ℤ)) then
          b.volume * ((min ((binEdges lo hi n).getD (k + 1) 0) b.high -
            max ((binEdges lo hi n).getD k 0) b.low) / (b.high - b.low)) else 0) =
        (if (s1 - 1 ≤ k ∧ k < s2) then
          b.volume / (b.high - b.low) * (g (k + 1) - g k) else 0) := by
      intro k hk
      by_cases hc : (s1 - 1 ≤ k ∧ k < s2)
      · rw [if_pos (by omega), if_pos hc]
        have hkn : k < n := lt_of_lt_of_le hc.2 hs2n
        have hk1 : k + 1 < n + 1 := by omega
        have hkn1 : k < n + 1 := by omega
        rw [binEdges_getD lo hi n (k + 1) hk1, binEdges_getD lo hi n k hkn1]
        have hk1s1 : ¬ (k + 1 < s1) := by omega
        have hek1 : ¬ (edgeF lo hi n (k + 1) < b.low) := by
          intro hcon
          exact hk1s1 ((ss_lt_iff lo hi n b.low hlohi (k + 1) hk1).1 hcon)
        have hek : edgeF lo hi n k < b.high :=
          (ss_lt_iff lo hi n b.high hlohi k hkn1).2 (by omega)
        have hg1 : g (k + 1) = min (edgeF lo hi n (k + 1)) b.high := by
          rw [hgdef]
          exact max_eq_right (le_min (not_lt.1 hek1) (le_of_lt hlh))
        have hg0 : g k = max (edgeF lo hi n k) b.low := by
          rw [hgdef]
          show max b.low (min (edgeF lo hi n k) b.high) = _
          rw [min_eq_left (le_of_lt hek), max_comm]
        rw [hg1, hg0]
        ring
      · rw [if_neg (by omega), if_neg hc]
    rw [Finset.sum_congr rfl hcongr, ← Finset.sum_filter]
    have hfilter : (Finset.range n).filter (fun k => s1 - 1 ≤ k ∧ k < s2) =
        Finset.Ico (s1 - 1) s2 := by
      ext k
      simp only [Finset.mem_filter, Finset.mem_range, Finset.mem_Ico]
      omega
    rw [hfilter, ← Finset.mul_sum, sum_Ico_telescope g s2 (s1 - 1) (by omega)]
    have hgs2 : g s2 = b.high := by
      rw [hgdef]
      have hns2 : ¬ (edgeF lo hi n s2 < b.high) := by
        intro hcon
        exact absurd ((ss_lt_iff lo hi n b.high hlohi s2 (by omega)).1 hcon) (by omega)
      show max b.low (min (edgeF lo hi n s2) b.high) = b.high
      rw [min_eq_right (not_lt.1 hns2)]
      exact max_eq_right (le_of_lt hlh)
    have hga : g (s1 - 1) = b.low := by
      rw [hgdef]
      show max b.low (min (edgeF lo hi n (s1 - 1)) b.high) = b.low
      by_cases hs1z : s1 = 0
      · have h0 : ¬ (edgeF lo hi n 0 < b.low) := by
          intro hcon
          have := (ss_lt_iff lo hi n b.low hlohi 0 (by omega)).1 hcon
          omega
        rw [edgeF_zero] at h0
        have hloeq : lo = b.low := le_antisymm hlo (not_lt.1 h0)
        rw [hs1z]
        show max b.low (min (edgeF lo hi n 0) b.high) = b.low
        rw [edgeF_zero, ← hloeq]
        have hlbh : lo ≤ b.high := by rw [hloeq]; exact hwf
        rw [min_eq_left hlbh, max_self]
      · have ha1 : s1 - 1 < s1 := by omega
        have hae : edgeF lo hi n (s1 - 1) < b.low :=
          (ss_lt_iff lo hi n b.low hlohi (s1 - 1) (by omega)).2 ha1
        rw [min_eq_left (le_of_lt (lt_of_lt_of_le hae hwf))]
        exact max_eq_left (le_of_lt hae)
    rw [hgs2, hga]
    rw [div_mul_cancel₀ b.volume hDelta]

end VolumeProfile

namespace VolumeProfile

theorem allocateAll_some (lo hi : ℚ) (n : ℕ) (hn : n ≠ 0) :
    ∀ (bars : List Bar) (vols vols2 : List ℚ),
      (∀ b ∈ bars, lo ≤ b.low ∧ b.low ≤ b.high ∧ b.high ≤ hi) →
      vols.length = n →
      allocateAll (binEdges lo hi n) n vols bars = some vols2 →
      vols2.sum = vols.sum + (bars.map Bar.volume).sum ∧ vols2.length = n := by
  intro bars
  induction bars with
  | nil =>
    intro vols vols2 _ hlen h
    have := Option.some.inj h
    subst this
    simp [hlen]
  | cons b bs ih =>
    intro vols vols2 hb hlen h
    cases halloc : allocate (binEdges lo hi n) n vols b with
    | none => rw [allocateAll, halloc] at h; cases h
    | some v1 =>
      rw [allocateAll, halloc] at h
      obtain ⟨hb1, hb2, hb3⟩ := hb b (List.mem_cons_self b bs)
      obtain ⟨hsum1, hlen1⟩ := allocate_some lo hi n vols b v1 hn hlen hb1 hb2 hb3 halloc
      obtain ⟨hsum2, hlen2⟩ :=
        ih v1 vols2 (fun x hx => hb x (List.mem_cons_of_mem b hx)) hlen1 h
      refine ⟨?_, hlen2⟩
      rw [hsum2, hsum1, List.map_cons, List.sum_cons]
      ring

theorem foldl_min_le (l : List Bar) : ∀ q : ℚ,
    (l.foldl (fun m x => min m x.low) q) ≤ q ∧
    ∀ x ∈ l, (l.foldl (fun m x => min m x.low) q) ≤ x.low := by
  induction l with
  | nil =>
    intro q
    exact ⟨le_refl q, by simp⟩
  | cons b bs ih =>
    intro q
    constructor
    · exact le_trans (ih (min q b.low)).1 (min_le_left _ _)
    · intro x hx
      rcases List.mem_cons.1 hx with rfl | hx2
      · exact le_trans (ih (min q x.low)).1 (min_le_right _ _)
      · exact (ih (min q b.low)).2 x hx2

theorem foldl_max_ge (l : List Bar) : ∀ q : ℚ,
    q ≤ (l.foldl (fun m x => max m x.high) q) ∧
    ∀ x ∈ l, x.high ≤ (l.foldl (fun m x => max m x.high) q) := by
  induction l with
  | nil =>
    intro q
    exact ⟨le_refl q, by simp⟩
  | cons b bs ih =>
    intro q
    constructor
    · exact le_trans (le_max_left _ _) (ih (max q b.high)).1
    · intro x hx
      rcases List.mem_cons.1 hx with rfl | hx2
      · exact le_trans (le_max_right _ _) (ih (max q x.high)).1
      · exact (ih (max q b.high)).2 x hx2

theorem minLow_le (data : List Bar) (b : Bar) (hb : b ∈ data) : minLow data ≤ b.low := by
  cases data with
  | nil => cases hb
  | cons b0 bs =>
    rcases List.mem_cons.1 hb with rfl | hb2
    · exact (foldl_min_le bs b.low).1
    · exact (foldl_min_le bs b0.low).2 b hb2

theorem maxHigh_ge (data : List Bar) (b : Bar) (hb : b ∈ data) : b.high ≤ maxHigh data := by
  cases data with
  | nil => cases hb
  | cons b0 bs =>
    rcases List.mem_cons.1 hb with rfl | hb2
    · exact (foldl_max_ge bs b.high).1
    · exact (foldl_max_ge bs b0.high).2 b hb2

theorem range_map_getD (l : List ℚ) :
    (List.range l.length).map (fun k => l.getD k 0) = l := by
  induction l with
  | nil => rfl
  | cons v vs ih =>
    rw [List.length_cons, List.range_succ_eq_map, List.map_cons, List.map_map]
    show v :: (List.range vs.length).map (fun k => vs.getD k 0) = v :: vs
    rw [ih]

theorem finalize_some (edges vols : List ℚ) (profile : List VPBin)
    (h : finalize edges vols = some profile) :
    ∃ top rest, sortedByVolume vols = top :: rest ∧
      profile = (List.range vols.length).map (fun k =>
        ({ price_low := edges.getD k 0, price_high := edges.getD (k + 1) 0,
           price_mid := (edges.getD k 0 + edges.getD (k + 1) 0) / 2,
           volume := vols.getD k 0,
           value_area :=
             decide (k ∈ (vaTake 0 (7 / 10 * vols.sum) (top :: rest)).map Prod.fst),
           point_of_control := decide (k = top.1) } : VPBin)) := by
  unfold finalize at h
  cases hs : sortedByVolume vols with
  | nil =>
    rw [hs] at h
    cases h
  | cons top rest =>
    rw [hs] at h
    exact ⟨top, rest, rfl, (Option.some.inj h).symm⟩

theorem profile_map_volume (edges vols : List ℚ) (top : ℕ × ℚ) (rest : List (ℕ × ℚ)) :
    ((List.range vols.length).map (fun k =>
        ({ price_low := edges.getD k 0, price_high := edges.getD (k + 1) 0,
           price_mid := (edges.getD k 0 + edges.getD (k + 1) 0) / 2,
           volume := vols.getD k 0,
           value_area :=
             decide (k ∈ (vaTake 0 (7 / 10 * vols.sum) (top :: rest)).map Prod.fst),
           point_of_control := decide (k = top.1) } : VPBin))).map
      (fun bin => bin.volume) = vols := by
  rw [List.map_map]
  show (List.range vols.length).map (fun k => vols.getD k 0) = vols
  exact range_map_getD vols

/-- C2 counterexample: the single-bar series whose only bar has
Low = High = 100 (its range touches the global minimum price) makes
calculate_volume_profile raise a KeyError (np.searchsorted sends the bar to
bin index -1 in the single-bin branch and pandas .loc rejects the label), so
no volume profile is produced at all and the bar's volume 10 is not
conserved. -/
theorem C2_counterexample : calculate_volume_profile [⟨100, 100, 10⟩] 2 = none := by
  norm_num [calculate_volume_profile, binEdges, edgeF, allocateAll, allocate, searchsorted,
    addIdx, finalize, sortedByVolume, enumVols, vaTake, List.insertionSort, List.orderedInsert,
    volGE, List.range_succ, List.filter_cons, List.filter_nil, minLow, maxHigh]

/-- C2 amended: for every non-empty BarSeries (bars satisfying low ≤ high) and
bin count N ≥ 1 on which calculate_volume_profile returns a profile (which
excludes exactly the series containing a bar with Low = High = global minimum,
where the source raises KeyError), the sum of the per-bin volumes equals the
sum of the input bar volumes, exactly over the rationals. -/
theorem C2_amended_volume_conservation (data : List Bar) (n : ℕ) (profile : List VPBin)
    (hne : data ≠ []) (hwf : ∀ b ∈ data, b.low ≤ b.high) (hn : 1 ≤ n)
    (h : calculate_volume_profile data n = some profile) :
    (profile.map (fun bin => bin.volume)).sum = (data.map Bar.volume).sum := by
  have hie : data.isEmpty = false := by
    cases data with
    | nil => exact absurd rfl hne
    | cons b bs => rfl
  unfold calculate_volume_profile at h
  rw [hie] at h
  simp only [Bool.false_eq_true, if_false] at h
  cases halloc : allocateAll (binEdges (minLow data) (maxHigh data) n) n
      (List.replicate n 0) data with
  | none => rw [halloc] at h; cases h
  | some vols =>
    rw [halloc] at h
    obtain ⟨top, rest, hs, hprofile⟩ := finalize_some _ _ _ h
    have hbounds : ∀ b ∈ data, minLow data ≤ b.low ∧ b.low ≤ b.high ∧ b.high ≤ maxHigh data :=
      fun b hb => ⟨minLow_le data b hb, hwf b hb, maxHigh_ge data b hb⟩
    obtain ⟨hsum, hlen⟩ := allocateAll_some (minLow data) (maxHigh data) n (by omega)
      data (List.replicate n 0) vols hbounds (by simp) halloc
    rw [hprofile, profile_map_volume, hsum]
    simp

/-- C2 witness: the single bar [0, 2] with volume 5 and one bin; the profile
is produced and its total volume is the input volume. -/
theorem C2_witness :
    calculate_volume_profile [⟨0, 2, 5⟩] 1 = some [⟨0, 2, 1, 5, true, true⟩] ∧
    (([(⟨0, 2, 1, 5, true, true⟩ : VPBin)]).map (fun bin => bin.volume)).sum =
      (([(⟨0, 2, 5⟩ : Bar)]).map Bar.volume).sum := by
  have hdemo : calculate_volume_profile [⟨0, 2, 5⟩] 1 = some [⟨0, 2, 1, 5, true, true⟩] := by
    norm_num [calculate_volume_profile, binEdges, edgeF, allocateAll, allocate, searchsorted,
      addIdx, finalize, sortedByVolume, enumVols, vaTake, List.insertionSort,
      List.orderedInsert, volGE, List.range_succ, List.filter_cons, List.filter_nil,
      minLow, maxHigh]
  exact ⟨hdemo, C2_amended_volume_conservation [⟨0, 2, 5⟩] 1 [⟨0, 2, 1, 5, true, true⟩]
    (by simp) (by intro b hb; simp at hb; subst hb; norm_num) (by omega) hdemo⟩

end VolumeProfile

namespace VolumeProfile

theorem sortedByVolume_perm (vols : List ℚ) : (sortedByVolume vols).Perm (enumVols vols) :=
  List.perm_insertionSort _ _

theorem sortedByVolume_sorted (vols : List ℚ) : List.Sorted volGE (sortedByVolume vols) :=
  List.sorted_insertionSort _ _

theorem mem_enumVols (vols : List ℚ) (p : ℕ × ℚ) (hp : p ∈ enumVols vols) :
    p.1 < vols.length ∧ p.2 = vols.getD p.1 0 := by
  unfold enumVols at hp
  obtain ⟨k, hk, rfl⟩ := List.mem_map.1 hp
  exact ⟨List.mem_range.1 hk, rfl⟩

theorem enumVols_map_fst (vols : List ℚ) :
    (enumVols vols).map Prod.fst = List.range vols.length := by
  unfold enumVols
  rw [List.map_map]
  show (List.range vols.length).map (fun k => k) = List.range vols.length
  simp

theorem mem_sortedByVolume (vols : List ℚ) (p : ℕ × ℚ) (hp : p ∈ sortedByVolume vols) :
    p.1 < vols.length ∧ p.2 = vols.getD p.1 0 :=
  mem_enumVols vols p ((sortedByVolume_perm vols).mem_iff.1 hp)

theorem sortedByVolume_fst_nodup (vols : List ℚ) :
    ((sortedByVolume vols).map Prod.fst).Nodup := by
  rw [((sortedByVolume_perm vols).map Prod.fst).nodup_iff, enumVols_map_fst]
  exact List.nodup_range _

theorem sorted_head_ge (top : ℕ × ℚ) (rest : List (ℕ × ℚ))
    (hs : List.Sorted volGE (top :: rest)) (p : ℕ × ℚ) (hp : p ∈ top :: rest) :
    p.2 ≤ top.2 := by
  rcases List.mem_cons.1 hp with rfl | hp2
  · exact le_refl _
  · exact (List.sorted_cons.1 hs).1 p hp2

theorem vaTake_sublist : ∀ (l : List (ℕ × ℚ)) (cum threshold : ℚ),
    (vaTake cum threshold l).Sublist l := by
  intro l
  induction l with
  | nil => intro cum threshold; exact List.Sublist.refl []
  | cons p ps ih =>
    intro cum threshold
    rw [vaTake]
    by_cases hc : threshold ≤ cum + p.2
    · rw [if_pos hc]
      exact (List.nil_sublist ps).cons₂ p
    · rw [if_neg hc]
      exact (ih (cum + p.2) threshold).cons₂ p

theorem vaTake_sum_ge : ∀ (l : List (ℕ × ℚ)) (cum threshold : ℚ),
    threshold ≤ cum + (l.map Prod.snd).sum →
    threshold ≤ cum + ((vaTake cum threshold l).map Prod.snd).sum := by
  intro l
  induction l with
  | nil =>
    intro cum threshold h
    rw [vaTake]
    simpa using h
  | cons p ps ih =>
    intro cum threshold h
    rw [vaTake]
    by_cases hc : threshold ≤ cum + p.2
    · rw [if_pos hc]
      simpa using hc
    · rw [if_neg hc]
      rw [List.map_cons, List.sum_cons] at h
      have h2 : threshold ≤ (cum + p.2) + (ps.map Prod.snd).sum := by linarith
      have h3 := ih (cum + p.2) threshold h2
      rw [List.map_cons, List.sum_cons]
      linarith

theorem vaTake_getLast_lt : ∀ (l : List (ℕ × ℚ)) (cum threshold : ℚ) (q : ℕ × ℚ),
    cum < threshold →
    (vaTake cum threshold l).getLast? = some q →
    cum + ((vaTake cum threshold l).map Prod.snd).sum - q.2 < threshold := by
  intro l
  induction l with
  | nil =>
    intro cum threshold q _ hlast
    rw [vaTake] at hlast
    cases hlast
  | cons p ps ih =>
    intro cum threshold q hcum hlast
    rw [vaTake] at hlast ⊢
    by_cases hc : threshold ≤ cum + p.2
    · rw [if_pos hc] at hlast ⊢
      have hq : q = p := by
        rw [List.getLast?_singleton] at hlast
        exact (Option.some.inj hlast).symm
      subst hq
      simp only [List.map_cons, List.map_nil, List.sum_cons, List.sum_nil]
      linarith
    · rw [if_neg hc] at hlast ⊢
      have hcum2 : cum + p.2 < threshold := not_le.1 hc
      rcases hrest : vaTake (cum + p.2) threshold ps with _ | ⟨r, rs⟩
      · rw [hrest] at hlast
        have hq : q = p := by
          rw [List.getLast?_singleton] at hlast
          exact (Option.some.inj hlast).symm
        subst hq
        simp only [List.map_cons, List.map_nil, List.sum_cons, List.sum_nil]
        linarith
      · rw [hrest] at hlast
        rw [List.getLast?_cons_cons] at hlast
        have h3 := ih (cum + p.2) threshold q hcum2 (by rw [hrest]; exact hlast)
        rw [hrest] at h3
        simp only [List.map_cons, List.sum_cons] at h3 ⊢
        linarith

theorem getLast?_mem_self {α : Type} (l : List α) (q : α) (h : l.getLast? = some q) :
    q ∈ l := by
  have hmem : q ∈ l.getLast? := by rw [h]; rfl
  obtain ⟨hne, heq⟩ := List.mem_getLast?_eq_getLast hmem
  rw [heq]
  exact List.getLast_mem hne

theorem sorted_getLast_min : ∀ l : List (ℕ × ℚ), List.Pairwise volGE l →
    ∀ q, l.getLast? = some q → ∀ p ∈ l, q.2 ≤ p.2 := by
  intro l
  induction l with
  | nil =>
    intro _ q hlast
    cases hlast
  | cons a as ih =>
    intro hp q hlast p hpmem
    rcases has : as with _ | ⟨b, bs⟩
    · subst has
      rw [List.getLast?_singleton] at hlast
      have hq : q = a := (Option.some.inj hlast).symm
      subst hq
      rcases List.mem_cons.1 hpmem with rfl | hp2
      · exact le_refl _
      · cases hp2
    · subst has
      rw [List.getLast?_cons_cons] at hlast
      have hqmem : q ∈ b :: bs := getLast?_mem_self _ q hlast
      rcases List.mem_cons.1 hpmem with rfl | hp2
      · exact (List.pairwise_cons.1 hp).1 q hqmem
      · exact ih (List.pairwise_cons.1 hp).2 q hlast p hp2

theorem list_sum_range_map (g : ℕ → ℚ) (n : ℕ) :
    ((List.range n).map g).sum = ∑ k ∈ Finset.range n, g k := by
  induction n with
  | zero => simp
  | succ n ih =>
    rw [List.range_succ, List.map_append, List.sum_append, Finset.sum_range_succ, ih]
    simp

end VolumeProfile

namespace VolumeProfile

theorem map_congr_mem {α β : Type} : ∀ (l : List α) (f g : α → β),
    (∀ a ∈ l, f a = g a) → l.map f = l.map g := by
  intro l f g h
  induction l with
  | nil => rfl
  | cons a as ih =>
    rw [List.map_cons, List.map_cons, h a (List.mem_cons_self a as),
      ih (fun x hx => h x (List.mem_cons_of_mem a hx))]

theorem length_filter_map_gen {α β : Type} (f : α → β) (p : β → Bool) : ∀ l : List α,
    ((l.map f).filter p).length = (l.filter (fun j => p (f j))).length := by
  intro l
  induction l with
  | nil => rfl
  | cons a l ih =>
    rw [List.map_cons, List.filter_cons, List.filter_cons]
    by_cases hp : p (f a)
    · rw [if_pos hp, if_pos hp, List.length_cons, List.length_cons, ih]
    · rw [if_neg hp, if_neg hp, ih]

theorem filter_range_eq_single (c n : ℕ) (hc : c < n) :
    (List.range n).filter (fun k => decide (k = c)) = [c] := by
  induction n with
  | zero => omega
  | succ n ih =>
    rw [List.range_succ, List.filter_append]
    by_cases hcn : c = n
    · subst hcn
      have h1 : (List.range c).filter (fun k => decide (k = c)) = [] := by
        rw [List.filter_eq_nil_iff]
        intro a ha
        simp only [decide_eq_true_eq]
        exact Nat.ne_of_lt (List.mem_range.1 ha)
      rw [h1]
      simp
    · have hc2 : c < n := by omega
      rw [ih hc2]
      have h2 : [n].filter (fun k => decide (k = c)) = [] := by
        simp [Ne.symm hcn]
      rw [h2, List.append_nil]

theorem filter_map_sum_bins (mk : ℕ → VPBin) : ∀ l : List ℕ,
    ((((l.map mk).filter (fun b => b.value_area)).map (fun b => b.volume))).sum =
      (l.map (fun k => if (mk k).value_area = true then (mk k).volume else 0)).sum := by
  intro l
  induction l with
  | nil => rfl
  | cons a l ih =>
    rw [List.map_cons, List.filter_cons, List.map_cons, List.sum_cons]
    by_cases hv : (mk a).value_area = true
    · rw [if_pos hv, List.map_cons, List.sum_cons, ih, if_pos hv]
    · rw [if_neg hv, ih, if_neg hv, zero_add]

theorem sortedByVolume_map_snd_sum (vols : List ℚ) :
    ((sortedByVolume vols).map Prod.snd).sum = vols.sum := by
  rw [((sortedByVolume_perm vols).map Prod.snd).sum_eq]
  unfold enumVols
  rw [List.map_map]
  show ((List.range vols.length).map (fun k => vols.getD k 0)).sum = vols.sum
  rw [range_map_getD]

end VolumeProfile

namespace VolumeProfile

theorem va_filtered_sum (edges vols : List ℚ) (top : ℕ × ℚ) (rest : List (ℕ × ℚ))
    (hs : sortedByVolume vols = top :: rest) :
    ((((List.range vols.length).map (fun k =>
        ({ price_low := edges.getD k 0, price_high := edges.getD (k + 1) 0,
           price_mid := (edges.getD k 0 + edges.getD (k + 1) 0) / 2,
           volume := vols.getD k 0,
           value_area :=
             decide (k ∈ (vaTake 0 (7 / 10 * vols.sum) (top :: rest)).map Prod.fst),
           point_of_control := decide (k = top.1) } : VPBin))).filter
        (fun b => b.value_area)).map (fun b => b.volume)).sum =
      ((vaTake 0 (7 / 10 * vols.sum) (top :: rest)).map Prod.snd).sum := by
  set va := vaTake 0 (7 / 10 * vols.sum) (top :: rest) with hva
  set vaIdx := va.map Prod.fst with hvaIdx
  have hvasub : va.Sublist (top :: rest) := by
    rw [hva]
    exact vaTake_sublist (top :: rest) 0 _
  have hmemva : ∀ q ∈ va, q.1 < vols.length ∧ q.2 = vols.getD q.1 0 := by
    intro q hq
    apply mem_sortedByVolume vols q
    rw [hs]
    exact hvasub.subset hq
  have hnodup : vaIdx.Nodup := by
    have hsubfst : vaIdx.Sublist ((top :: rest).map Prod.fst) := by
      rw [hvaIdx]
      exact hvasub.map Prod.fst
    have hnd : ((sortedByVolume vols).map Prod.fst).Nodup := sortedByVolume_fst_nodup vols
    rw [hs] at hnd
    exact hnd.sublist hsubfst
  have hidxlt : ∀ k ∈ vaIdx, k < vols.length := by
    intro k hk
    rw [hvaIdx] at hk
    obtain ⟨q, hq, rfl⟩ := List.mem_map.1 hk
    exact (hmemva q hq).1
  rw [filter_map_sum_bins, list_sum_range_map]
  have hfs : (Finset.range vols.length).filter (fun k => k ∈ vaIdx) = vaIdx.toFinset := by
    ext k
    simp only [Finset.mem_filter, Finset.mem_range, List.mem_toFinset]
    exact ⟨fun hk => hk.2, fun hk => ⟨hidxlt k hk, hk⟩⟩
  have hfinal : vaIdx.map (fun k => vols.getD k 0) = va.map Prod.snd := by
    rw [hvaIdx, List.map_map]
    exact map_congr_mem va _ _ (fun q hq => ((hmemva q hq).2).symm)
  have hsum1 : (∑ k ∈ Finset.range vols.length,
      (if k ∈ vaIdx then vols.getD k 0 else 0)) = (va.map Prod.snd).sum := by
    rw [← Finset.sum_filter, hfs, List.sum_toFinset _ hnodup, hfinal]
  rw [← hsum1]
  apply Finset.sum_congr rfl
  intro k _
  show (if decide (k ∈ vaIdx) = true then vols.getD k 0 else 0) = _
  by_cases hk : k ∈ vaIdx
  · rw [if_pos (decide_eq_true hk), if_pos hk]
  · rw [if_neg (by simpa using hk), if_neg hk]

end VolumeProfile

namespace VolumeProfile

/-- C7 counterexample: a two-bar series whose first bar has
Low = High = 5 = global minimum makes calculate_volume_profile raise
(KeyError on bin label -1), so no profile with a point-of-control bin is
produced for this non-empty BarSeries. -/
theorem C7_counterexample : calculate_volume_profile [⟨5, 5, 3⟩, ⟨5, 7, 4⟩] 2 = none := by
  norm_num [calculate_volume_profile, binEdges, edgeF, allocateAll, allocate, searchsorted,
    addIdx, finalize, sortedByVolume, enumVols, vaTake, List.insertionSort, List.orderedInsert,
    volGE, List.range_succ, List.filter_cons, List.filter_nil, minLow, maxHigh]

/-- C7 amended: for every non-empty BarSeries on which calculate_volume_profile
returns a profile (the KeyError crash at a bar with Low = High = global
minimum excluded), exactly one bin carries is_point_of_control = true, its
volume is maximal among all bins, and the flagged bin index is exactly the
index paired with the head of the model's volume-descending sort order — the
deterministic first-encountered tie-break. -/
theorem C7_amended_unique_poc_max_volume (data : List Bar) (n : ℕ) (profile : List VPBin)
    (hne : data ≠ []) (hwf : ∀ b ∈ data, b.low ≤ b.high)
    (h : calculate_volume_profile data n = some profile) :
    (profile.filter (fun bin => bin.point_of_control)).length = 1 ∧
    (∀ bin ∈ profile, bin.point_of_control = true →
      ∀ bin2 ∈ profile, bin2.volume ≤ bin.volume) ∧
    (∀ k, k < profile.length →
      ((profile.getD k ⟨0, 0, 0, 0, false, false⟩).point_of_control = true ↔
        k = ((sortedByVolume (profile.map (fun bin => bin.volume))).headD (0, 0)).1)) := by
  have hie : data.isEmpty = false := by
    cases data with
    | nil => exact absurd rfl hne
    | cons b bs => rfl
  unfold calculate_volume_profile at h
  rw [hie] at h
  simp only [Bool.false_eq_true, if_false] at h
  cases halloc : allocateAll (binEdges (minLow data) (maxHigh data) n) n
      (List.replicate n 0) data with
  | none => rw [halloc] at h; cases h
  | some vols =>
    rw [halloc] at h
    obtain ⟨top, rest, hs, hprofile⟩ := finalize_some _ _ _ h
    have hvols : profile.map (fun bin => bin.volume) = vols := by
      rw [hprofile]
      exact profile_map_volume _ _ _ _
    have htopmem : top ∈ sortedByVolume vols := by
      rw [hs]
      exact List.mem_cons_self _ _
    have htopfacts := mem_sortedByVolume vols top htopmem
    refine ⟨?_, ?_, ?_⟩
    · rw [hprofile, length_filter_map_gen]
      show ((List.range vols.length).filter (fun j => decide (j = top.1))).length = 1
      rw [filter_range_eq_single top.1 vols.length htopfacts.1]
      rfl
    · intro bin hbin hflag bin2 hbin2
      rw [hprofile] at hbin hbin2
      obtain ⟨k, hk, hbk⟩ := List.mem_map.1 hbin
      obtain ⟨k2, hk2, hbk2⟩ := List.mem_map.1 hbin2
      have hkeq : k = top.1 := by
        rw [← hbk] at hflag
        exact of_decide_eq_true hflag
      have hbinvol : bin.volume = top.2 := by
        rw [← hbk]
        show vols.getD k 0 = top.2
        rw [hkeq, ← htopfacts.2]
      have hbin2vol : bin2.volume = vols.getD k2 0 := by
        rw [← hbk2]
      have hpair : ((k2, vols.getD k2 0) : ℕ × ℚ) ∈ sortedByVolume vols := by
        rw [(sortedByVolume_perm vols).mem_iff]
        unfold enumVols
        exact List.mem_map_of_mem _ hk2
      rw [hs] at hpair
      have hle := sorted_head_ge top rest (by rw [← hs]; exact sortedByVolume_sorted vols)
        _ hpair
      rw [hbinvol, hbin2vol]
      exact hle
    · intro k hk
      have hlen : profile.length = vols.length := by
        rw [hprofile]
        simp
      rw [hlen] at hk
      rw [hvols, hs]
      show (profile.getD k ⟨0, 0, 0, 0, false, false⟩).point_of_control = true ↔ k = top.1
      rw [hprofile, TechnicalIndicators.getD_range_map, if_pos hk]
      show decide (k = top.1) = true ↔ k = top.1
      exact Eq.to_iff decide_eq_true_eq

/-- C3 counterexample: the single bar [1, 3] with volume 0 produces a profile
whose total volume is 0; the value area is the single bin of volume 0, and
removing its lowest-volume member leaves cumulative volume 0, which is not
below 0.70 times the total volume 0 — the claimed minimality fails for
zero-volume data. -/
theorem C3_counterexample :
    calculate_volume_profile [⟨1, 3, 0⟩] 2 =
      some [⟨1, 2, 3/2, 0, true, true⟩, ⟨2, 3, 5/2, 0, false, false⟩] ∧
    ¬ (((([⟨1, 2, 3/2, 0, true, true⟩, ⟨2, 3, 5/2, 0, false, false⟩] : List VPBin).filter
          (fun bin => bin.value_area)).map (fun bin => bin.volume)).sum -
          (⟨1, 2, 3/2, 0, true, true⟩ : VPBin).volume <
        7 / 10 * (([⟨1, 2, 3/2, 0, true, true⟩, ⟨2, 3, 5/2, 0, false, false⟩] :
          List VPBin).map (fun bin => bin.volume)).sum) := by
  constructor
  · norm_num [calculate_volume_profile, binEdges, edgeF, allocateAll, allocate, searchsorted,
      addIdx, finalize, sortedByVolume, enumVols, vaTake, List.insertionSort,
      List.orderedInsert, volGE, List.range_succ, List.filter_cons, List.filter_nil,
      minLow, maxHigh]
  · norm_num [List.filter_cons, List.filter_nil]

/-- C3 amended: for every non-empty BarSeries on which calculate_volume_profile
returns a profile and whose total binned volume is positive, the bins flagged
is_value_area = true have cumulative volume at least 0.70 times the total
volume, and removing any lowest-volume member of the value-area set drops the
cumulative volume strictly below that threshold; positivity of the total is
required, since with total volume 0 the greedy loop still flags one bin and
removing it cannot drop 0 below 0. -/
theorem C3_amended_value_area_70pct_minimal (data : List Bar) (n : ℕ)
    (profile : List VPBin) (hne : data ≠ []) (hwf : ∀ b ∈ data, b.low ≤ b.high)
    (h : calculate_volume_profile data n = some profile)
    (hpos : 0 < (profile.map (fun bin => bin.volume)).sum) :
    7 / 10 * (profile.map (fun bin => bin.volume)).sum ≤
      ((profile.filter (fun bin => bin.value_area)).map (fun bin => bin.volume)).sum ∧
    (∀ bin ∈ profile, bin.value_area = true →
      (∀ bin2 ∈ profile, bin2.value_area = true → bin.volume ≤ bin2.volume) →
      ((profile.filter (fun bin => bin.value_area)).map (fun bin => bin.volume)).sum
          - bin.volume <
        7 / 10 * (profile.map (fun bin => bin.volume)).sum) := by
  have hie : data.isEmpty = false := by
    cases data with
    | nil => exact absurd rfl hne
    | cons b bs => rfl
  unfold calculate_volume_profile at h
  rw [hie] at h
  simp only [Bool.false_eq_true, if_false] at h
  cases halloc : allocateAll (binEdges (minLow data) (maxHigh data) n) n
      (List.replicate n 0) data with
  | none => rw [halloc] at h; cases h
  | some vols =>
    rw [halloc] at h
    obtain ⟨top, rest, hs, hprofile⟩ := finalize_some _ _ _ h
    have hvols : profile.map (fun bin => bin.volume) = vols := by
      rw [hprofile]
      exact profile_map_volume _ _ _ _
    have hfsum := va_filtered_sum (binEdges (minLow data) (maxHigh data) n) vols top rest hs
    rw [← hprofile] at hfsum
    rw [hfsum, hvols]
    rw [hvols] at hpos
    have hsnd := sortedByVolume_map_snd_sum vols
    rw [hs] at hsnd
    have hthr_le : 7 / 10 * vols.sum ≤ 0 + ((top :: rest).map Prod.snd).sum := by
      rw [hsnd, zero_add]
      linarith
    have hge := vaTake_sum_ge (top :: rest) 0 (7 / 10 * vols.sum) hthr_le
    rw [zero_add] at hge
    refine ⟨hge, ?_⟩
    intro bin hbin hflag hmin
    have hsubd : (vaTake 0 (7 / 10 * vols.sum) (top :: rest)).Sublist (top :: rest) :=
      vaTake_sublist (top :: rest) 0 _
    have hmemq : ∀ q ∈ vaTake 0 (7 / 10 * vols.sum) (top :: rest),
        q.1 < vols.length ∧ q.2 = vols.getD q.1 0 := by
      intro q hq
      apply mem_sortedByVolume vols q
      rw [hs]
      exact hsubd.subset hq
    rw [hprofile] at hbin
    obtain ⟨k, hk, hbk⟩ := List.mem_map.1 hbin
    have hflagk : k ∈ (vaTake 0 (7 / 10 * vols.sum) (top :: rest)).map Prod.fst := by
      rw [← hbk] at hflag
      exact of_decide_eq_true hflag
    obtain ⟨qb, hqb, hqbk⟩ := List.mem_map.1 hflagk
    have hbvol : bin.volume = qb.2 := by
      rw [← hbk]
      show vols.getD k 0 = qb.2
      rw [(hmemq qb hqb).2, hqbk]
    have hvane : vaTake 0 (7 / 10 * vols.sum) (top :: rest) ≠ [] := by
      rw [vaTake]
      exact List.cons_ne_nil _ _
    have hlast := List.getLast?_eq_getLast_of_ne_nil hvane
    have hqlast_mem : (vaTake 0 (7 / 10 * vols.sum) (top :: rest)).getLast hvane ∈
        vaTake 0 (7 / 10 * vols.sum) (top :: rest) := List.getLast_mem hvane
    have hsorted : List.Pairwise volGE (vaTake 0 (7 / 10 * vols.sum) (top :: rest)) := by
      have hsv := sortedByVolume_sorted vols
      rw [hs] at hsv
      exact hsv.sublist hsubd
    have hqlast_min := sorted_getLast_min _ hsorted _ hlast
    have hmem2 : ∃ bin2 ∈ profile, bin2.value_area = true ∧
        bin2.volume = ((vaTake 0 (7 / 10 * vols.sum) (top :: rest)).getLast hvane).2 := by
      rw [hprofile]
      refine ⟨_, List.mem_map_of_mem _
        (List.mem_range.2 (hmemq _ hqlast_mem).1), ?_, ?_⟩
      · show decide (((vaTake 0 (7 / 10 * vols.sum) (top :: rest)).getLast hvane).1 ∈
          (vaTake 0 (7 / 10 * vols.sum) (top :: rest)).map Prod.fst) = true
        exact decide_eq_true (List.mem_map_of_mem Prod.fst hqlast_mem)
      · show vols.getD ((vaTake 0 (7 / 10 * vols.sum) (top :: rest)).getLast hvane).1 0 = _
        exact ((hmemq _ hqlast_mem).2).symm
    obtain ⟨bin2, hbin2mem, hbin2flag, hbin2vol⟩ := hmem2
    have h1 : bin.volume ≤ bin2.volume := hmin bin2 hbin2mem hbin2flag
    have h2 : ((vaTake 0 (7 / 10 * vols.sum) (top :: rest)).getLast hvane).2 ≤ bin.volume := by
      rw [hbvol]
      exact hqlast_min qb hqb
    have hbeq : bin.volume = ((vaTake 0 (7 / 10 * vols.sum) (top :: rest)).getLast hvane).2 := by
      rw [hbin2vol] at h1
      exact le_antisymm h1 h2
    have hlt := vaTake_getLast_lt (top :: rest) 0 (7 / 10 * vols.sum) _ (by linarith) hlast
    rw [zero_add] at hlt
    rw [hbeq]
    exact hlt

end VolumeProfile

namespace VolumeProfile

/-- C7 witness: the single-bar, single-bin profile has exactly one
point-of-control bin of maximal volume at the head of the descending order. -/
theorem C7_witness :
    (([(⟨0, 2, 1, 5, true, true⟩ : VPBin)]).filter
      (fun bin => bin.point_of_control)).length = 1 ∧
    (∀ bin ∈ ([(⟨0, 2, 1, 5, true, true⟩ : VPBin)]), bin.point_of_control = true →
      ∀ bin2 ∈ ([(⟨0, 2, 1, 5, true, true⟩ : VPBin)]), bin2.volume ≤ bin.volume) ∧
    (∀ k, k < ([(⟨0, 2, 1, 5, true, true⟩ : VPBin)]).length →
      ((([(⟨0, 2, 1, 5, true, true⟩ : VPBin)]).getD k
          ⟨0, 0, 0, 0, false, false⟩).point_of_control = true ↔
        k = ((sortedByVolume (([(⟨0, 2, 1, 5, true, true⟩ : VPBin)]).map
          (fun bin => bin.volume))).headD (0, 0)).1)) := by
  have hdemo : calculate_volume_profile [⟨0, 2, 5⟩] 1 = some [⟨0, 2, 1, 5, true, true⟩] := by
    norm_num [calculate_volume_profile, binEdges, edgeF, allocateAll, allocate, searchsorted,
      addIdx, finalize, sortedByVolume, enumVols, vaTake, List.insertionSort,
      List.orderedInsert, volGE, List.range_succ, List.filter_cons, List.filter_nil,
      minLow, maxHigh]
  exact C7_amended_unique_poc_max_volume [⟨0, 2, 5⟩] 1 [⟨0, 2, 1, 5, true, true⟩]
    (by simp) (by intro b hb; simp at hb; subst hb; norm_num) hdemo

/-- C3 witness: the single-bar, single-bin profile with total volume 5 has a
value area reaching 70 percent of the total, minimal in the stated sense. -/
theorem C3_witness :
    7 / 10 * (([(⟨0, 2, 1, 5, true, true⟩ : VPBin)]).map (fun bin => bin.volume)).sum ≤
      ((([(⟨0, 2, 1, 5, true, true⟩ : VPBin)]).filter (fun bin => bin.value_area)).map
        (fun bin => bin.volume)).sum ∧
    (∀ bin ∈ ([(⟨0, 2, 1, 5, true, true⟩ : VPBin)]), bin.value_area = true →
      (∀ bin2 ∈ ([(⟨0, 2, 1, 5, true, true⟩ : VPBin)]), bin2.value_area = true →
        bin.volume ≤ bin2.volume) →
      ((([(⟨0, 2, 1, 5, true, true⟩ : VPBin)]).filter (fun bin => bin.value_area)).map
          (fun bin => bin.volume)).sum - bin.volume <
        7 / 10 * (([(⟨0, 2, 1, 5, true, true⟩ : VPBin)]).map
          (fun bin => bin.volume)).sum) := by
  have hdemo : calculate_volume_profile [⟨0, 2, 5⟩] 1 = some [⟨0, 2, 1, 5, true, true⟩] := by
    norm_num [calculate_volume_profile, binEdges, edgeF, allocateAll, allocate, searchsorted,
      addIdx, finalize, sortedByVolume, enumVols, vaTake, List.insertionSort,
      List.orderedInsert, volGE, List.range_succ, List.filter_cons, List.filter_nil,
      minLow, maxHigh]
  exact C3_amended_value_area_70pct_minimal [⟨0, 2, 5⟩] 1 [⟨0, 2, 1, 5, true, true⟩]
    (by simp) (by intro b hb; simp at hb; subst hb; norm_num) hdemo (by norm_num)

end VolumeProfile
